import Mathlib

/-!
Verification of the dependency-constraint translation core of `py2spack`
(files `src/py2spack/conversion_tools.py` and `src/py2spack/core.py`).

The development shallowly embeds the Python code in Lean:

* Spack's `StandardVersion` (from `spack.version.version_types`, the external
  library the code manipulates) is embedded as `StandardVersion` below: a
  release tuple of components (numeric, alphabetic, or "infinity" components,
  the last of which only `typemax` produces) together with a prerelease tag.
  Comparison is the Python tuple comparison used by spack: lexicographic on
  the release tuple, then on the prerelease tuple, where a shorter tuple that
  is a prefix of a longer one sorts first.  Spack's inclusive version range
  `lo:hi` is the half-open interval from `lo` to the successor version of
  `hi` (`_next_version` in spack); the repository's own docstrings pin this
  semantics down (`:1.0` contains `1.1-alpha1`, `:1.0.0` does not).
* `packaging.version.Version` is embedded as `PVersion`.
* The functions of `conversion_tools.py` (`packaging_to_spack_version`,
  `_version_type_supported`, `_best_upperbound`, `_best_lowerbound`,
  `condensed_version_list`, the marker evaluator, `pkg_to_spack_name`,
  `convert_requirement`, `_pkg_specifier_set_to_version_list`) and
  `core.py` (`_find_dependency_satisfiability_conflicts`) are translated
  function by function.  Python `assert` failures, uncaught exceptions and
  out-of-range indexing are modelled by `Option`/explicit result
  constructors.
-/

/-- A single component of a spack version's release tuple.  `str` components
model `VersionStrComponent` carrying a plain string (spack sorts these below
all numeric components); `inf` components model the infinity components
(`develop`, `main`, ..., and the synthetic component of
`StandardVersion.typemax()`), which sort above all numeric components. -/
inductive VComp where
  | str (s : String)
  | num (n : Nat)
  | inf (k : Nat)
deriving DecidableEq

/-- Spack prerelease tuple: `(ALPHA, n) < (BETA, n) < (RC, n) < (FINAL,)`,
compared as Python tuples of integers (ALPHA = -3, BETA = -2, RC = -1,
FINAL = 0). -/
inductive Prerel where
  | alpha (n : Nat)
  | beta (n : Nat)
  | rc (n : Nat)
  | final
deriving DecidableEq

/-- Spack `StandardVersion`, reduced to its order-relevant data: the pair
`(release, prerelease)` that spack's `__eq__`/`__lt__` compare (the stored
string and separators play no semantic role). -/
structure StandardVersion where
  release : List VComp
  pre : Prerel
deriving DecidableEq

/-- Code-point lexicographic comparison of character lists (Python string
comparison). -/
def charListCmp : List Char → List Char → Ordering
  | [], [] => .eq
  | [], _ :: _ => .lt
  | _ :: _, [] => .gt
  | c :: cs, d :: ds =>
    match compare c.toNat d.toNat with
    | .eq => charListCmp cs ds
    | o => o

/-- Comparison of strings, mirroring Python's code-point lexicographic `<`. -/
def strCmp (s t : String) : Ordering :=
  charListCmp s.data t.data

/-- Python `str.lower` (the names compared here are ASCII). -/
def strLower (s : String) : String :=
  String.mk (s.data.map Char.toLower)

/-- Numeric value of a digit string. -/
def digitsToNat (l : List Char) : Nat :=
  l.foldl (fun n c => n * 10 + (c.toNat - 48)) 0

/-- Comparison of release components, mirroring spack's
`VersionStrComponent.__lt__`/`__gt__` and `int` comparison: plain string
components sort below integers, infinity components above. -/
def vcompCmp : VComp → VComp → Ordering
  | .str s, .str t => strCmp s t
  | .str _, .num _ => .lt
  | .str _, .inf _ => .lt
  | .num _, .str _ => .gt
  | .num n, .num m => compare n m
  | .num _, .inf _ => .lt
  | .inf _, .str _ => .gt
  | .inf _, .num _ => .gt
  | .inf j, .inf k => compare j k

/-- Python tuple comparison of release tuples (lexicographic, shorter prefix
sorts first). -/
def releaseCmp : List VComp → List VComp → Ordering
  | [], [] => .eq
  | [], _ :: _ => .lt
  | _ :: _, [] => .gt
  | x :: xs, y :: ys =>
    match vcompCmp x y with
    | .eq => releaseCmp xs ys
    | o => o

/-- Python tuple comparison of prerelease tuples. -/
def prerelCmp : Prerel → Prerel → Ordering
  | .alpha n, .alpha m => compare n m
  | .alpha _, _ => .lt
  | .beta _, .alpha _ => .gt
  | .beta n, .beta m => compare n m
  | .beta _, _ => .lt
  | .rc _, .alpha _ => .gt
  | .rc _, .beta _ => .gt
  | .rc n, .rc m => compare n m
  | .rc _, .final => .lt
  | .final, .final => .eq
  | .final, _ => .gt

/-- Spack `StandardVersion` comparison: Python comparison of the pair
`(release, prerelease)`. -/
def svCmp (a b : StandardVersion) : Ordering :=
  match releaseCmp a.release b.release with
  | .eq => prerelCmp a.pre b.pre
  | o => o

/-- `a < b` on spack versions. -/
def svLtB (a b : StandardVersion) : Bool := svCmp a b == .lt

/-- `a ≤ b` on spack versions. -/
def svLeB (a b : StandardVersion) : Bool := svCmp a b != .gt

/-- `StandardVersion.typemin()`: the empty version, below every version
occurring in practice. -/
def typemin : StandardVersion := ⟨[], .final⟩

/-- `StandardVersion.typemax()`: the `infinity` version, above every other
version (its single component is an infinity component beyond the named
infinity versions). -/
def typemax : StandardVersion := ⟨[.inf 6], .final⟩

/-- `StandardVersion.up_to(n)` / slicing: the version made of the first `n`
release components; the prerelease part is dropped (the sliced version is
rebuilt from the release components only, hence FINAL). -/
def up_to (v : StandardVersion) (n : Nat) : StandardVersion :=
  ⟨v.release.take n, .final⟩

/-- Successor of a version component, modelling spack's `_next_version`
bumping of the last component (numeric components are incremented; for
string components spack produces the next-larger string component, embedded
here as appending the smallest reachable character). -/
def bumpComp : VComp → VComp
  | .num n => .num (n + 1)
  | .str s => .str (s ++ "0")
  | .inf k => .inf (k + 1)

/-- Bump the last element of a release tuple (empty tuple: spack has no
reachable call with an empty release; we mirror it by producing `(0,)`). -/
def bumpLast : List VComp → List VComp
  | [] => [.num 0]
  | [c] => [bumpComp c]
  | c :: rest => c :: bumpLast rest

/-- Spack `_next_version`: the least version strictly above `v` and all of
`v`'s sub-versions — bump the prerelease number if `v` is a prerelease,
otherwise bump the last release component. -/
def nextVersion (v : StandardVersion) : StandardVersion :=
  match v.pre with
  | .alpha n => ⟨v.release, .alpha (n + 1)⟩
  | .beta n => ⟨v.release, .beta (n + 1)⟩
  | .rc n => ⟨v.release, .rc (n + 1)⟩
  | .final => ⟨bumpLast v.release, .final⟩

/-- Spack `ClosedOpenRange`: the half-open interval `[lo, hi)`. -/
structure VRange where
  lo : StandardVersion
  hi : StandardVersion
deriving DecidableEq

/-- Spack `VersionRange(lo, hi)` = `ClosedOpenRange.from_version_range`:
the inclusive range `lo:hi` becomes `[lo, next_version(hi))`; constructing an
empty range raises `EmptyRangeError`, modelled by `none`. -/
def mkVersionRange (lo hi : StandardVersion) : Option VRange :=
  let h := nextVersion hi
  if svLtB h lo then none else some ⟨lo, h⟩

/-- Membership of a version in a `ClosedOpenRange`. -/
def rangeContains (r : VRange) (v : StandardVersion) : Bool :=
  svLeB r.lo v && svLtB v r.hi

/-- Spack `VersionList`, as its list of (closed-open) ranges. -/
abbrev VersionList := List VRange

/-- Membership of a version in a `VersionList` (any range contains it). -/
def vlContains (l : VersionList) (v : StandardVersion) : Bool :=
  l.any (fun r => rangeContains r v)

/-- Two closed-open ranges are connected (overlap or touch), as in spack's
`ClosedOpenRange._union_if_not_disjoint`. -/
def rangesConnected (a b : VRange) : Bool :=
  svLeB a.lo b.hi && svLeB b.lo a.hi

/-- Union of two connected ranges. -/
def rangeUnion (a b : VRange) : VRange :=
  ⟨if svLeB a.lo b.lo then a.lo else b.lo, if svLeB b.hi a.hi then a.hi else b.hi⟩

/-- Intersection of two closed-open ranges (`none` when disjoint). -/
def rangeIntersect (a b : VRange) : Option VRange :=
  let lo := if svLeB a.lo b.lo then b.lo else a.lo
  let hi := if svLeB a.hi b.hi then a.hi else b.hi
  if svLtB lo hi then some ⟨lo, hi⟩ else none

/-- Insert a range into a list of ranges keeping it sorted by lower bound. -/
def vlInsertByLo (m : VRange) : VersionList → VersionList
  | [] => [m]
  | x :: xs => if svLeB m.lo x.lo then m :: x :: xs else x :: vlInsertByLo m xs

/-- Insert a range into a version list, coalescing all connected ranges and
keeping the list sorted by lower bound — models `VersionList.add`. -/
def vlAdd (l : VersionList) (r : VRange) : VersionList :=
  let connected := l.filter (fun x => rangesConnected x r)
  let rest := l.filter (fun x => !rangesConnected x r)
  let merged := connected.foldl rangeUnion r
  vlInsertByLo merged rest

/-- The `VersionList(ranges)` constructor: add the ranges one by one. -/
def vlFromRanges (rs : List VRange) : VersionList :=
  rs.foldl vlAdd []

/-- Intersection of two version lists (pairwise range intersections), as used
by spack's `Spec.constrain` on versions. -/
def vlIntersect (a b : VersionList) : VersionList :=
  vlFromRanges ((a.map (fun ra => b.filterMap (fun rb => rangeIntersect ra rb))).flatten)

/-- Union of two version lists, modelling `VersionList.add` of a whole list. -/
def vlUnion (a b : VersionList) : VersionList :=
  b.foldl vlAdd a

/-- `sv.any_version`: the version list `[:]`. -/
def anyVersionList : VersionList := [⟨typemin, nextVersion typemax⟩]

/-- Tag of a packaging pre-release segment (`a`, `b`, `rc`; packaging
normalizes `alpha`/`beta`/`c`/`pre`/`preview` to these). -/
inductive PreTag where
  | a
  | b
  | rc
deriving DecidableEq

/-- `packaging.version.Version`, reduced to its semantic fields: epoch,
release tuple, optional pre-release, post-release and dev-release segments,
and optional local segments (numeric or alphanumeric, already split at
`.`/`-`/`_` separators). -/
structure PVersion where
  epoch : Nat := 0
  release : List Nat
  pre : Option (PreTag × Nat) := none
  post : Option Nat := none
  dev : Option Nat := none
  localSegs : Option (List VComp) := none
deriving DecidableEq

/-- `_version_type_supported`: a packaging version is representable in spack
iff it has no pre-release, or it has a pre-release and no post/dev/local
segment. -/
def version_type_supported (v : PVersion) : Bool :=
  v.pre == none || (v.post == none && v.dev == none && v.localSegs == none)

/-- `packaging_to_spack_version`: convert a packaging version to the
equivalent spack version.  A positive epoch is prepended as an extra leading
release component; a pre-release becomes the spack prerelease tuple (post,
dev and local segments are ignored in that case, with a warning); otherwise
post, dev and local segments are appended to the release tuple as
`post`/`dev` string components and the local components. -/
def packaging_to_spack_version (v : PVersion) : StandardVersion :=
  let rel0 : List VComp :=
    (if v.epoch > 0 then [VComp.num v.epoch] else []) ++ v.release.map VComp.num
  match v.pre with
  | some (tag, num) =>
    { release := rel0
      pre := match tag with
        | .a => .alpha num
        | .b => .beta num
        | .rc => .rc num }
  | none =>
    let rel1 := rel0 ++ (match v.post with
      | some n => [VComp.str "post", VComp.num n]
      | none => [])
    let rel2 := rel1 ++ (match v.dev with
      | some n => [VComp.str "dev", VComp.num n]
      | none => [])
    let rel3 := rel2 ++ (match v.localSegs with
      | some bits => bits
      | none => [])
    { release := rel3, pre := .final }

/-- Insert a spack version into a list sorted ascending by `svLtB`. -/
def insertSV (x : StandardVersion) : List StandardVersion → List StandardVersion
  | [] => [x]
  | y :: ys => if svLtB x y then x :: y :: ys else y :: insertSV x ys

/-- `sorted(...)` on spack versions (Python sorts with `__lt__`; equal
versions are structurally equal here, so stability is immaterial). -/
def sortSV (l : List StandardVersion) : List StandardVersion :=
  l.foldr insertSV []

/-- Number of leading components shared by two release tuples (the loop
`while i < m and curr.version[0][i] == nxt.version[0][i]: i += 1`). -/
def commonPrefixLen : List VComp → List VComp → Nat
  | x :: xs, y :: ys => if x = y then commonPrefixLen xs ys + 1 else 0
  | _, _ => 0

/-- `_best_upperbound(curr, nxt)`: the most general upper bound that includes
`curr` but not `nxt`.  The function asserts `curr < nxt` (assertion failure
is `none`).  If `curr`'s release tuple is a proper prefix of `nxt`'s, the
bound is `curr` padded with trailing zero components up to `nxt`'s length;
if the two releases agree on the whole shorter tuple otherwise, the bound is
`curr` itself (keeping a prerelease of `curr` inside the range); otherwise
the bound is `curr` truncated just past the first differing component. -/
def best_upperbound (curr nxt : StandardVersion) : Option StandardVersion :=
  if svLtB curr nxt then
    let m := min curr.release.length nxt.release.length
    let i := commonPrefixLen curr.release nxt.release
    if i = curr.release.length ∧ curr.release.length < nxt.release.length then
      some ⟨curr.release ++ List.replicate (nxt.release.length - curr.release.length) (VComp.num 0),
            .final⟩
    else if i = m then
      some curr
    else
      some (up_to curr (i + 1))
  else none

/-- First index `i < min len` with `prev[i] < curr[i]` (the early-return scan
of `_best_lowerbound`; indices where `prev[i] > curr[i]` are skipped, exactly
as in the Python loop). -/
def firstLtIdx : List VComp → List VComp → Option Nat
  | p :: ps, c :: cs =>
    if vcompCmp p c = .lt then some 0 else (firstLtIdx ps cs).map (· + 1)
  | _, _ => none

/-- Number of leading `0` components (`while i < len(curr) and
curr.version[0][i] == 0`; a string component is not equal to the integer 0). -/
def countLeadingZeros : List VComp → Nat
  | .num 0 :: t => countLeadingZeros t + 1
  | _ => 0

/-- `_best_lowerbound(prev, curr)`: the most general lower bound that includes
`curr` but not `prev`.  Asserts `prev < curr` and, in the common-prefix case,
`len(curr) > len(prev)` (assertion failure is `none`).  If `prev` has the
same release tuple as `curr` (a prerelease of `curr`), the bound is `curr`;
if some component of `prev` is smaller than `curr`'s, the bound is `curr`
truncated just past the first such index; otherwise the bound is `curr`
truncated just past the first non-zero component after the common prefix, or
`curr` itself when all remaining components are zero. -/
def best_lowerbound (prev curr : StandardVersion) : Option StandardVersion :=
  if svLtB prev curr then
    if curr.release = prev.release then some curr
    else
      match firstLtIdx prev.release curr.release with
      | some i => some (up_to curr (i + 1))
      | none =>
        if prev.release.length < curr.release.length then
          let i := prev.release.length + countLeadingZeros (curr.release.drop prev.release.length)
          if i ≥ curr.release.length then some curr else some (up_to curr (i + 1))
        else none
  else none

/-- Python list indexing with negative-index wraparound (`l[-1]` is the last
element); out of range is `none` (an `IndexError`). -/
def pyGet (l : List StandardVersion) (i : Int) : Option StandardVersion :=
  if i < 0 then l.get? (l.length - (-i).toNat) else l.get? i.toNat

/-- Index of the first occurrence of `v` (`list.index`, `ValueError` = none). -/
def listIndexOf (l : List StandardVersion) (v : StandardVersion) : Option Nat :=
  l.findIdx? (fun x => x = v)

/-- One pass of the while-loop of `condensed_version_list`.  State: `j` and
`i` (the indices into `subset` and `all_versions`), `lo` (the pending lower
bound) and the accumulated ranges.  The fuel argument bounds the number of
iterations (the loop advances `j` every iteration, so `subset.length` fuel
is always enough); exhausting fuel with the guard still true is `none`. -/
def clLoop (subset all : List StandardVersion) :
    Nat → Nat → Nat → StandardVersion → List VRange →
    Option (Nat × Nat × StandardVersion × List VRange)
  | 0, j, i, lo, acc =>
    if j < subset.length ∧ i < all.length then none else some (j, i, lo, acc)
  | fuel + 1, j, i, lo, acc =>
    if j < subset.length ∧ i < all.length then
      match subset.get? j, all.get? i with
      | some sj, some ai =>
        if ai ≠ sj then
          match subset.get? (j - 1) with
          | some sjm =>
            match best_upperbound sjm ai with
            | some hi =>
              match mkVersionRange lo hi with
              | some r =>
                match listIndexOf all sj with
                | some i2 =>
                  match pyGet all ((i2 : Int) - 1) with
                  | some prev =>
                    match best_lowerbound prev sj with
                    | some lo2 => clLoop subset all fuel (j + 1) (i2 + 1) lo2 (acc ++ [r])
                    | none => none
                  | none => none
                | none => none
              | none => none
            | none => none
          | none => none
        else clLoop subset all fuel (j + 1) (i + 1) lo acc
      | _, _ => none
    else some (j, i, lo, acc)

/-- `condensed_version_list(_subset_of_versions, _all_versions)`: filter out
unsupported version types, convert to spack versions, sort both lists, and
walk them in lock-step emitting one closed-open range per maximal run of
universe versions contained in the subset.  Python exceptions (assertion
failures in the bound helpers, `ValueError` from `list.index`,
`EmptyRangeError` from range construction) are modelled by `none`. -/
def condensed_version_list (subsetIn allIn : List PVersion) : Option VersionList :=
  let subsetF := subsetIn.filter version_type_supported
  let allF := allIn.filter version_type_supported
  let subset := sortSV (subsetF.map packaging_to_spack_version)
  let all_versions := sortSV (allF.map packaging_to_spack_version)
  if subset.isEmpty then some []
  else
    match subset.get? 0 with
    | none => none
    | some s0 =>
      match listIndexOf all_versions s0 with
      | none => none
      | some idx0 =>
        let i0 := idx0 + 1
        let lo0? : Option StandardVersion :=
          if i0 = 1 then some typemin
          else
            match pyGet all_versions ((i0 : Int) - 2) with
            | some prev => best_lowerbound prev s0
            | none => none
        match lo0? with
        | none => none
        | some lo0 =>
          match clLoop subset all_versions subset.length 1 i0 lo0 [] with
          | none => none
          | some (j, i, lo, acc) =>
            let hi? : Option StandardVersion :=
              if i = all_versions.length then some typemax
              else
                match subset.get? (j - 1), all_versions.get? i with
                | some sjm, some ai => best_upperbound sjm ai
                | _, _ => none
            match hi? with
            | none => none
            | some hi =>
              match mkVersionRange lo hi with
              | none => none
              | some r => some (vlFromRanges (acc ++ [r]))

/-- Trailing zeros of a release tuple are dropped before comparison
(packaging's `_cmpkey`). -/
def trimZeros (r : List Nat) : List Nat :=
  (r.reverse.dropWhile (· == 0)).reverse

/-- Python tuple comparison of integer tuples. -/
def natListCmp : List Nat → List Nat → Ordering
  | [], [] => .eq
  | [], _ :: _ => .lt
  | _ :: _, [] => .gt
  | x :: xs, y :: ys =>
    match compare x y with
    | .eq => natListCmp xs ys
    | o => o

/-- Comparison of normalized pre-release letters: `"a" < "b" < "rc"`. -/
def preTagCmp : PreTag → PreTag → Ordering
  | .a, .a => .eq
  | .a, _ => .lt
  | .b, .a => .gt
  | .b, .b => .eq
  | .b, .rc => .lt
  | .rc, .rc => .eq
  | .rc, _ => .gt

/-- Rank of the pre-release key in packaging's `_cmpkey`: a dev release of the
base version sorts below any pre-release (rank 0), a pre-release below the
final release (rank 1 vs 2). -/
def pvPreRank (v : PVersion) : Nat :=
  if v.pre = none ∧ v.post = none ∧ v.dev ≠ none then 0
  else if v.pre ≠ none then 1
  else 2

/-- Total order on packaging versions (`packaging.version.Version._cmpkey`):
epoch, zero-trimmed release, pre-release key, post-release key (absent sorts
first), dev-release key (absent sorts last), local segments (absent sorts
first; string segments sort below numeric ones). -/
def pvCmp (x y : PVersion) : Ordering :=
  (compare x.epoch y.epoch).then <|
  (natListCmp (trimZeros x.release) (trimZeros y.release)).then <|
  (compare (pvPreRank x) (pvPreRank y)).then <|
  ((match x.pre, y.pre with
   | some (tx, nx), some (ty, ny) => (preTagCmp tx ty).then (compare nx ny)
   | _, _ => .eq) : Ordering).then <|
  ((match x.post, y.post with
   | none, none => .eq
   | none, some _ => .lt
   | some _, none => .gt
   | some a, some b => compare a b) : Ordering).then <|
  ((match x.dev, y.dev with
   | none, none => .eq
   | none, some _ => .gt
   | some _, none => .lt
   | some a, some b => compare a b) : Ordering).then <|
  ((match x.localSegs, y.localSegs with
   | none, none => .eq
   | none, some _ => .lt
   | some _, none => .gt
   | some a, some b => releaseCmp a b) : Ordering)

/-- Comparison operators of a packaging specifier clause.  `eqStar`/`neStar`
are the wildcard forms `==X.Y.*` / `!=X.Y.*`; `compat` is `~=`. -/
inductive SpecOp where
  | eq
  | ne
  | lt
  | le
  | gt
  | ge
  | compat
  | eqStar
  | neStar
deriving DecidableEq

/-- One clause of a packaging `SpecifierSet`. -/
structure SpecClause where
  op : SpecOp
  ver : PVersion
deriving DecidableEq

/-- A packaging `SpecifierSet` is a conjunction of clauses. -/
abbrev SpecifierSet := List SpecClause

/-- Drop the local segments of a version (packaging compares against
`prospective.public` for most operators when the clause has no local part). -/
def stripLocal (v : PVersion) : PVersion := { v with localSegs := none }

/-- `Version.is_prerelease` (a dev release counts as a pre-release). -/
def pvIsPrerelease (v : PVersion) : Bool := v.pre ≠ none || v.dev ≠ none

/-- `Version.is_postrelease`. -/
def pvIsPostrelease (v : PVersion) : Bool := v.post ≠ none

/-- Equality of base versions (epoch and zero-trimmed release). -/
def pvBaseEq (x y : PVersion) : Bool :=
  x.epoch == y.epoch && trimZeros x.release == trimZeros y.release

/-- Does the (zero-padded) release of `p` start with the `n`-segment tuple
`base`?  Used for wildcard and `~=` matching. -/
def relMatchesBase (base : List Nat) (p : PVersion) : Bool :=
  let padded := p.release ++ List.replicate (base.length - p.release.length) 0
  padded.take base.length == base

/-- Satisfaction of a single specifier clause, following
`packaging.specifiers.Specifier._compare_*` (with `prereleases=True`, which
is how `conversion_tools` always calls it):

* `==`/`!=` compare for version equality, stripping the candidate's local
  segments when the clause has none;
* `<=`/`>=` compare the candidate with local segments stripped;
* `<` additionally rejects pre-releases of the clause's own base version when
  the clause is not a pre-release, and `>` likewise rejects post-releases of
  the base version and any local version of it;
* `~=N.⋯.M` requires `>=` the clause version and the release to match the
  clause's release minus the last segment; `==X.Y.*`/`!=X.Y.*` match on the
  zero-padded release against the wildcard's segments. -/
def clauseContains (c : SpecClause) (p : PVersion) : Bool :=
  match c.op with
  | .eq =>
    pvCmp (if c.ver.localSegs = none then stripLocal p else p) c.ver == .eq
  | .ne =>
    pvCmp (if c.ver.localSegs = none then stripLocal p else p) c.ver != .eq
  | .le => pvCmp (stripLocal p) c.ver != .gt
  | .ge => pvCmp (stripLocal p) c.ver != .lt
  | .lt =>
    pvCmp p c.ver == .lt &&
    !(!pvIsPrerelease c.ver && pvIsPrerelease p && pvBaseEq p c.ver)
  | .gt =>
    pvCmp p c.ver == .gt &&
    !(!pvIsPostrelease c.ver && pvIsPostrelease p && pvBaseEq p c.ver) &&
    !(p.localSegs ≠ none && pvBaseEq p c.ver)
  | .compat =>
    pvCmp (stripLocal p) c.ver != .lt &&
    p.epoch == c.ver.epoch &&
    relMatchesBase c.ver.release.dropLast p
  | .eqStar => p.epoch == c.ver.epoch && relMatchesBase c.ver.release p
  | .neStar => !(p.epoch == c.ver.epoch && relMatchesBase c.ver.release p)

/-- Satisfaction of a whole specifier set (conjunction of its clauses). -/
def specifier_set_contains (ss : SpecifierSet) (p : PVersion) : Bool :=
  ss.all (fun c => clauseContains c p)

/-- Result of `PackageProvider.get_versions`: a list of versions or a
`PackageProviderQueryError`. -/
inductive PkgVersions where
  | ok (vs : List PVersion)
  | queryError

/-- A package provider, reduced to its `get_versions` lookup. -/
abbrev PackageProvider := String → PkgVersions

/-- `KNOWN_PYTHON_VERSIONS`. -/
def KNOWN_PYTHON_VERSIONS : List (Nat × Nat × Nat) :=
  [(3,6,15),(3,7,17),(3,8,18),(3,9,18),(3,10,13),(3,11,7),(3,12,1),(3,13,0),(4,0,0)]

/-- `_get_python_versions`: the static table as packaging versions. -/
def get_python_versions : List PVersion :=
  KNOWN_PYTHON_VERSIONS.map (fun t => { release := [t.1, t.2.1, t.2.2] })

/-- The version universe `_pkg_specifier_set_to_version_list` consults:
the static python table for `"python"`, otherwise the provider. -/
def all_versions_for (provider : PackageProvider) (pkg : String) : PkgVersions :=
  if pkg = "python" then .ok get_python_versions else provider pkg

/-- `_pkg_specifier_set_to_version_list`: an empty `VersionList` on a provider
query error or when no known version matches; otherwise the condensed list of
the matching versions.  `none` models an uncaught Python exception raised by
`condensed_version_list`. -/
def pkg_specifier_set_to_version_list (provider : PackageProvider) (pkg : String)
    (ss : SpecifierSet) : Option VersionList :=
  match all_versions_for provider pkg with
  | .queryError => some []
  | .ok vs =>
    let matching := vs.filter (fun v => specifier_set_contains ss v)
    if matching.isEmpty then some []
    else condensed_version_list matching vs

/-- A spack `Spec`, reduced to the fields this code base manipulates: an
optional package name, a version constraint on the named package, boolean
variants (`+x` / `~x`), a platform (`platform=...`, spack's `architecture`),
and an optional constrained `^python` dependency. -/
structure SSpec where
  name : Option String := none
  versions : VersionList := anyVersionList
  variants : List (String × Bool) := []
  platform : Option String := none
  pydep : Option VersionList := none
deriving DecidableEq

/-- Merge variant maps as `Spec.constrain` does; opposite polarities for the
same variant are unsatisfiable (`none`). -/
def constrainVariants (a b : List (String × Bool)) : Option (List (String × Bool)) :=
  b.foldl
    (fun acc nv =>
      match acc with
      | none => none
      | some vs =>
        match vs.lookup nv.1 with
        | some pol2 => if nv.2 = pol2 then some vs else none
        | none => some (vs ++ [nv]))
    (some a)

/-- `Spec.constrain(other)`: intersect the two specs; `none` models the
`UnsatisfiableSpecError` raised when they are incompatible (different names,
disjoint versions, clashing variants or platforms). -/
def constrain (a b : SSpec) : Option SSpec := do
  let name ← (match a.name, b.name with
    | some x, some y => if x = y then some (some x) else none
    | some x, none => some (some x)
    | none, y => some y : Option (Option String))
  let versions := vlIntersect a.versions b.versions
  if versions.isEmpty then none
  else do
    let variants ← constrainVariants a.variants b.variants
    let platform ← (match a.platform, b.platform with
      | some x, some y => if x = y then some (some x) else none
      | some x, none => some (some x)
      | none, y => some y : Option (Option String))
    let pydep ← (match a.pydep, b.pydep with
      | some x, some y =>
        let i := vlIntersect x y
        if i.isEmpty then none else some (some i)
      | some x, none => some (some x)
      | none, y => some y : Option (Option VersionList))
    some ⟨name, versions, variants, platform, pydep⟩

/-- `Spec.intersects(other)`: the two specs admit a common refinement. -/
def sintersects (a b : SSpec) : Bool :=
  (match a.name, b.name with
   | some x, some y => x == y
   | _, _ => true) &&
  !(vlIntersect a.versions b.versions).isEmpty &&
  (a.variants.all (fun nv =>
    match b.variants.lookup nv.1 with
    | some pol2 => nv.2 == pol2
    | none => true)) &&
  (match a.platform, b.platform with
   | some x, some y => x == y
   | _, _ => true) &&
  (match a.pydep, b.pydep with
   | some x, some y => !(vlIntersect x y).isEmpty
   | _, _ => true)

/-- Helper of `dedupKeepFirst`: drop elements already seen. -/
def dedupAux {α : Type} [DecidableEq α] (seen : List α) : List α → List α
  | [] => []
  | x :: xs => if x ∈ seen then dedupAux seen xs else x :: dedupAux (seen ++ [x]) xs

/-- `list(set(xs))`: deduplicate (Python's set iteration order is
implementation-defined; first occurrences are kept here, which is
equality-of-sets faithful). -/
def dedupKeepFirst {α : Type} [DecidableEq α] (l : List α) : List α :=
  dedupAux [] l

/-- Result of evaluating a marker node: statically true / false, a
disjunction of when-specs, or `unevaluable` (Python `None`: the marker
cannot be translated). -/
inductive MRes where
  | tru
  | fls
  | unevaluable
  | specs (l : List SSpec)
deriving DecidableEq

/-- `_intersection(lhs, rhs)`: pairwise `constrain`, dropping unsatisfiable
pairs, deduplicated. -/
def spec_list_intersection (lhs rhs : List SSpec) : List SSpec :=
  dedupKeepFirst ((lhs.map (fun e => rhs.filterMap (fun r => constrain e r))).flatten)

/-- `_union(lhs, rhs)`: list union, except that a singleton right-hand side
with no variants and no architecture is merged by adding its python
dependency's versions to each left-hand spec's root version list.  `none`
models the `ValueError` raised by `python, *_ = rhs[0].dependencies("python")`
when that spec has no python dependency. -/
def spec_list_union (lhs rhs : List SSpec) : Option (List SSpec) :=
  match rhs with
  | [r] =>
    if r.variants.isEmpty && r.platform = none then
      match r.pydep with
      | none => none
      | some pv => some (lhs.map (fun e => { e with versions := vlUnion e.versions pv }))
    else some (dedupKeepFirst (lhs ++ rhs))
  | _ => some (dedupKeepFirst (lhs ++ rhs))

/-- Outcome of one iteration of the `_eval_and` loop body after the
early-return check on `rhs is False`. -/
inductive AndStep where
  | retFls
  | exc
  | cont (lhs : MRes)

/-- One step of the `_eval_and` loop (after the `rhs is False` early return):
`None` (unevaluable) beats everything, `True` is the identity, two spec
lists intersect pairwise (an empty intersection returns `False` from the
whole group); the `exc` case models the `TypeError` of the unreachable
`lhs is False` state. -/
def andCombine (lhs rhs : MRes) : AndStep :=
  if lhs = .unevaluable ∨ rhs = .unevaluable then .cont .unevaluable
  else if rhs = .tru then .cont lhs
  else if lhs = .tru then .cont rhs
  else
    match lhs, rhs with
    | .specs a, .specs b =>
      let i := spec_list_intersection a b
      if i.isEmpty then .retFls else .cont (.specs i)
    | _, _ => .exc

/-- The `and`-loop of `_eval_and`, operating on the (pure) evaluation results
of the remaining nodes: a `False` result returns immediately, otherwise the
accumulator is combined with the result.  A `none` element is an exception
raised while evaluating that node. -/
def andLoop : MRes → List (Option MRes) → Option MRes
  | lhs, [] => some lhs
  | _, none :: _ => none
  | lhs, some rhs :: t =>
    if rhs = .fls then some .fls
    else
      match andCombine lhs rhs with
      | .retFls => some .fls
      | .exc => none
      | .cont lhs2 => andLoop lhs2 t

/-- `_eval_and` on the evaluation results of a group's nodes. -/
def and_eval : List (Option MRes) → Option MRes
  | [] => none
  | none :: _ => none
  | some r :: t => if r = .fls then some .fls else andLoop r t

/-- One step of the `_do_evaluate_marker` or-loop (after the `rhs is True`
early return): `None` beats everything, `False` is the identity, and two
spec lists are combined with `_union` (whose `ValueError` is `none`). -/
def orCombine (lhs rhs : MRes) : Option MRes :=
  if lhs = .unevaluable ∨ rhs = .unevaluable then some .unevaluable
  else if lhs = .fls then some rhs
  else if rhs = .fls then some lhs
  else
    match lhs, rhs with
    | .specs a, .specs b => (spec_list_union a b).map .specs
    | _, _ => none

/-- The `or`-loop of `_do_evaluate_marker` on evaluated group results:
a `True` group returns immediately, otherwise the accumulator is combined
with the group result. -/
def orLoop : MRes → List (Option MRes) → Option MRes
  | lhs, [] => some lhs
  | _, none :: _ => none
  | lhs, some rhs :: t =>
    if rhs = .tru then some .tru
    else
      match orCombine lhs rhs with
      | none => none
      | some lhs2 => orLoop lhs2 t

/-- The `or`-fold of `_do_evaluate_marker` on evaluated group results. -/
def or_eval : List (Option MRes) → Option MRes
  | [] => none
  | none :: _ => none
  | some r :: t => if r = .tru then some .tru else orLoop r t

/-- The binary operators appearing in a serialized marker expression. -/
inductive MarkerBinOp where
  | andOp
  | orOp
deriving DecidableEq

/-- Group a serialized marker node list into its two-level disjunctive form:
the inner lists are `and` groups, the outer list the `or` of the groups
(the grouping loop of `_do_evaluate_marker`). -/
def marker_groups_aux {α : Type} : List α → List (MarkerBinOp × α) → List (List α)
  | cur, [] => [cur]
  | cur, (.andOp, n) :: t => marker_groups_aux (cur ++ [n]) t
  | cur, (.orOp, n) :: t => cur :: marker_groups_aux [n] t

/-- `marker_groups first rest` groups the node list `[first, op₁, n₁, ...]`. -/
def marker_groups {α : Type} (first : α) (rest : List (MarkerBinOp × α)) : List (List α) :=
  marker_groups_aux [first] rest

/-- Combine pre-evaluated node results exactly as `_do_evaluate_marker`
combines the nodes (evaluation of the leaves is pure, so grouping the
results and short-circuiting over them is observationally identical to the
Python control flow). -/
def combine_marker (first : Option MRes) (rest : List (MarkerBinOp × Option MRes)) :
    Option MRes :=
  or_eval ((marker_groups first rest).map and_eval)

/-- A node of a marker expression in two-level disjunctive form: a leaf
`(variable|value, op, variable|value)`; the Boolean flags tell whether each
side is a `Variable` or a literal `Value`.  Deeper nesting (parenthesized
sub-markers, the `list` case of `_eval_node`) is outside the two-level form
the specification fixes and is not modelled. -/
structure MarkerNode where
  lhsVar : Bool
  lhs : String
  op : String
  rhsVar : Bool
  rhs : String
deriving DecidableEq

/-- The enumerated platform set of `_eval_platform_constraint`. -/
def platformsList : List String := ["linux", "cray", "darwin", "windows", "freebsd"]

/-- `spec.Spec("platform=p")`. -/
def platformSpec (p : String) : SSpec := { platform := some p }

/-- Alias normalization of `_eval_platform_constraint` (`win32 → windows`,
`linux2 → linux`, after lower-casing). -/
def normalizePlatform (value : String) : String :=
  let p := strLower value
  if p = "win32" then "windows" else if p = "linux2" then "linux" else p

/-- `_eval_platform_constraint` for a `platform_system`/`sys_platform` leaf:
operators other than `==`/`!=` are unevaluable; a literal in the enumerated
set yields the singleton (for `==`) or the other members (for `!=`) as
`platform=` specs; an unknown literal is statically `True` for `!=` and
`False` for `==`. -/
def eval_platform_constraint (op value : String) : MRes :=
  if op = "==" ∨ op = "!=" then
    let platform := normalizePlatform value
    if platform ∈ platformsList then
      .specs ((platformsList.filter
        (fun p => (p ≠ platform ∧ op = "!=") ∨ (p = platform ∧ op = "=="))).map platformSpec)
    else if op = "!=" then .tru else .fls
  else .unevaluable

/-- Parse the literal of a python-version marker as a packaging version.
Models `specifiers.SpecifierSet(f"{op}{value}")` for the plain-release
literals this code meets (`"3.8"`, `"3.10.2"`, ...); any other shape follows
the `InvalidSpecifier` path and yields `none` (the marker is then
unevaluable). -/
def parseVersionStr (s : String) : Option PVersion :=
  let parts := s.data.splitOn '.'
  if parts.all (fun p => p.length > 0 && p.all Char.isDigit) then
    some { release := parts.map digitsToNat }
  else none

/-- The specifier operator corresponding to a marker comparison operator. -/
def specOpOfString (op : String) : Option SpecOp :=
  if op = "==" then some .eq
  else if op = "!=" then some .ne
  else if op = ">" then some .gt
  else if op = ">=" then some .ge
  else if op = "<" then some .lt
  else if op = "<=" then some .le
  else none

/-- `_eval_python_version_marker`: `some none` is Python's `None` (operator
not supported or literal unparsable), `some (some vl)` a computed version
list, and the outer `none` an uncaught exception from
`condensed_version_list`. -/
def eval_python_version_marker (provider : PackageProvider) (op value : String) :
    Option (Option VersionList) :=
  if op = "==" ∨ op = ">" ∨ op = ">=" ∨ op = "<" ∨ op = "<=" ∨ op = "!=" then
    match parseVersionStr value with
    | none => some none
    | some v =>
      match specOpOfString op with
      | none => some none
      | some o => (pkg_specifier_set_to_version_list provider "python" [⟨o, v⟩]).map some
  else some none

/-- `UNSUPPORTED_PYTHON`: the range `:3.5` (everything below python 3.6). -/
def UNSUPPORTED_PYTHON : VRange :=
  ⟨typemin, nextVersion ⟨[.num 3, .num 5], .final⟩⟩

/-- `a.satisfies(b)` on closed-open ranges: `a ⊆ b`. -/
def rangeSatisfies (a b : VRange) : Bool :=
  svLeB b.lo a.lo && svLeB a.hi b.hi

/-- `ClosedOpenRange._union_if_not_disjoint`. -/
def union_if_not_disjoint (a b : VRange) : Option VRange :=
  if svLeB a.lo b.hi && svLeB b.lo a.hi then some (rangeUnion a b) else none

/-- `_simplify_python_constraint`: drop leading ranges implied by
`UNSUPPORTED_PYTHON`, then widen the first remaining range by union with it
when they are not disjoint. -/
def simplify_python_constraint (l : VersionList) : VersionList :=
  match l.dropWhile (fun r => rangeSatisfies r UNSUPPORTED_PYTHON) with
  | [] => []
  | r :: rest =>
    match union_if_not_disjoint UNSUPPORTED_PYTHON r with
    | some u => u :: rest
    | none => r :: rest

/-- `_eval_python_constraint`: evaluate a `python_version` /
`python_full_version` leaf.  An empty simplified list is statically `False`,
the full list statically `True`, otherwise a single `^python@...` spec. -/
def eval_python_constraint (provider : PackageProvider) (op value : String) : Option MRes :=
  match eval_python_version_marker provider op value with
  | none => none
  | some none => some .unevaluable
  | some (some vl) =>
    let vl := simplify_python_constraint vl
    if vl.isEmpty then some .fls
    else if vl = anyVersionList then some .tru
    else some (.specs [{ pydep := some vl }])

/-- Valid spack variant names, modelling which `spec.Spec(f"+{value}")`
parses without a `SpecSyntaxError`. -/
def validVariantName (s : String) : Bool :=
  s.length > 0 && s.data.all (fun c => c.isAlphanum || c = '-' || c = '_' || c = '.')

/-- The operator-flip table used when the literal is on the left-hand side. -/
def flipOp (op : String) : Option String :=
  if op = ">" then some "<"
  else if op = "<" then some ">"
  else if op = ">=" then some "<="
  else if op = "<=" then some ">="
  else if op = "==" then some "=="
  else if op = "!=" then some "!="
  else if op = "~=" then some "~="
  else none

/-- The body of `_eval_constraint` after normalization: dispatch on the
variable name.  Implementation-identity leaves evaluate statically (only
cpython is supported); platform and python-version leaves delegate; an
`extra` leaf becomes a `+variant`/`~variant` spec (an unparsable variant
name follows the caught-`SpecSyntaxError` path to `None`); anything else is
unevaluable. -/
def eval_constraint_core (provider : PackageProvider) (varName op value : String) :
    Option MRes :=
  if varName = "implementation_name" ∨ varName = "platform_python_implementation" then
    some (if op = "==" then (if strLower value = "cpython" then .tru else .fls)
          else if op = "!=" then (if strLower value = "cpython" then .fls else .tru)
          else .unevaluable)
  else if varName = "platform_system" ∨ varName = "sys_platform" then
    some (eval_platform_constraint op value)
  else if varName = "python_version" ∨ varName = "python_full_version" then
    eval_python_constraint provider op value
  else if varName = "extra" then
    if op = "==" then
      some (if validVariantName value then .specs [{ variants := [(value, true)] }]
            else .unevaluable)
    else if op = "!=" then
      some (if validVariantName value then .specs [{ variants := [(value, false)] }]
            else .unevaluable)
    else some .unevaluable
  else some .unevaluable

/-- `_eval_constraint`: flip the comparison when the literal is on the
left-hand side (an operator with no flip is unevaluable), then dispatch. -/
def eval_constraint (provider : PackageProvider) (lhsVar : Bool) (lhs op : String)
    (rhsVar : Bool) (rhs : String) : Option MRes :=
  if ¬ lhsVar ∧ rhsVar then
    match flipOp op with
    | none => some .unevaluable
    | some fop => eval_constraint_core provider rhs fop lhs
  else eval_constraint_core provider lhs op rhs

/-- `_eval_node` on a (leaf) node: `_eval_constraint`. -/
def eval_node (provider : PackageProvider) (n : MarkerNode) : Option MRes :=
  eval_constraint provider n.lhsVar n.lhs n.op n.rhsVar n.rhs

/-- `_do_evaluate_marker` on a serialized node list: group into the
two-level disjunctive form and combine the (pure) node evaluations with the
same short-circuit order as the Python loops. -/
def do_evaluate_marker (provider : PackageProvider) (first : MarkerNode)
    (rest : List (MarkerBinOp × MarkerNode)) : Option MRes :=
  combine_marker (eval_node provider first)
    (rest.map (fun p => (p.1, eval_node provider p.2)))

/-- A `packaging.markers.Marker`: its serialized `_markers` node list. -/
structure Marker where
  first : MarkerNode
  rest : List (MarkerBinOp × MarkerNode)

/-- `evaluate_marker`. -/
def evaluate_marker (provider : PackageProvider) (m : Marker) : Option MRes :=
  do_evaluate_marker provider m.first m.rest

/-- `_eval_and` of a group of nodes (evaluating each node, then folding). -/
def eval_and (provider : PackageProvider) (g : List MarkerNode) : Option MRes :=
  and_eval (g.map (eval_node provider))

/-- Python `str.startswith`. -/
def startswith (s p : String) : Bool := p.data.isPrefixOf s.data

/-- Models `spack.util.naming.simplify_name`: lowercase the name and map the
separator characters `_`/`.` to dashes (the spack helper also splits
camel-case names and collapses separator runs; the theorems about
`pkg_to_spack_name` below hold for any simplification). -/
def simplify_name (name : String) : String :=
  String.mk ((strLower name).data.map (fun c => if c = '_' ∨ c = '.' then '-' else c))

/-- The three spack packages whose names carry a double `py-` on purpose. -/
def doublePyNames : List String := ["py-cpuinfo", "py-tes", "py-spy"]

/-- `pkg_to_spack_name`: simplify the PyPI name and prepend `py-` unless the
result is `python` or already starts with `py-` — except for the three
whitelisted names, which get a second `py-`. -/
def pkg_to_spack_name (name : String) : String :=
  let spack_name := simplify_name name
  if spack_name ≠ "python" ∧
      (¬ startswith spack_name "py-" = true ∨ spack_name ∈ doublePyNames) then
    "py-" ++ spack_name
  else spack_name

/-- Abstract tag of a `ConversionError`'s message (the Python class carries
an interpolated f-string built from the requirement; requirements yielding
the same message kind and data yield equal errors). -/
inductive ConvErrKind where
  | markerNotConvertible
  | noMatchingVersions
deriving DecidableEq

/-- `ConversionError`. -/
structure ConversionError where
  kind : ConvErrKind
deriving DecidableEq

/-- A `packaging.requirements.Requirement`, reduced to the fields
`convert_requirement` reads. -/
structure Requirement where
  name : String
  extras : List String := []
  specifier : Option SpecifierSet := none
  marker : Option Marker := none

/-- Result of `convert_requirement`: a list of `(dependency spec, when spec)`
pairs, a `ConversionError`, or an uncaught Python exception (`crash`). -/
inductive ConvResult where
  | crash
  | err (e : ConversionError)
  | ok (l : List (SSpec × SSpec))
deriving DecidableEq

/-- `spec.Spec("+v")`. -/
def plusVariant (v : String) : SSpec := { variants := [(v, true)] }

/-- Constrain a spec by `+extra` for each extra in turn
(`requirement_spec.constrain(spec.Spec(f"+{extra}"))`); an
`UnsatisfiableSpecError` is uncaught there, hence `none` = crash. -/
def constrainExtras (s : SSpec) : List String → Option SSpec
  | [] => some s
  | e :: t =>
    match constrain s (plusVariant e) with
    | none => none
    | some s2 => constrainExtras s2 t

/-- Constrain every when-spec by `+from_extra` (`none` = uncaught
`UnsatisfiableSpecError`). -/
def constrainWhens (fe : String) : List SSpec → Option (List SSpec)
  | [] => some []
  | w :: t =>
    match constrain w (plusVariant fe), constrainWhens fe t with
    | some w2, some t2 => some (w2 :: t2)
    | _, _ => none

/-- Outcome of the marker block of `convert_requirement`. -/
inductive MarkerStep where
  | fail
  | skip
  | keep (whens : List SSpec)

/-- The marker block: no marker keeps the default single empty when-spec; an
evaluation raising `ValueError` is caught and fails the requirement;
statically `False` skips it; a spec list replaces the default; `True` and
`None` (unevaluable) both fall through keeping the default — the unevaluable
case is not distinguished by the code. -/
def markerStep (provider : PackageProvider) : Option Marker → MarkerStep
  | none => .keep [{}]
  | some m =>
    match evaluate_marker provider m with
    | none => .fail
    | some .fls => .skip
    | some (.specs l) => .keep l
    | some _ => .keep [{}]

/-- The tail of `convert_requirement`: pair the requirement spec with each
when-spec, first constraining the when-specs by `+from_extra` if given. -/
def finishConvert (reqSpec : SSpec) (whens : List SSpec) (from_extra : Option String) :
    ConvResult :=
  match from_extra with
  | none => .ok (whens.map (fun w => (reqSpec, w)))
  | some fe =>
    match constrainWhens fe whens with
    | none => .crash
    | some ws => .ok (ws.map (fun w => (reqSpec, w)))

/-- `convert_requirement(r, provider, from_extra)`: evaluate the marker
(False ⇒ empty result, untranslatable-`ValueError` ⇒ `ConversionError`,
spec list ⇒ when-specs), constrain by the dependency's extras, convert the
version specifier against the dependency's known versions (an empty
resulting version list ⇒ `ConversionError`), and conjoin `+from_extra` onto
every when-spec. -/
def convert_requirement (provider : PackageProvider) (r : Requirement)
    (from_extra : Option String := none) : ConvResult :=
  match markerStep provider r.marker with
  | .fail => .err ⟨.markerNotConvertible⟩
  | .skip => .ok []
  | .keep when_list =>
    match constrainExtras { name := some (pkg_to_spack_name r.name) } r.extras with
    | none => .crash
    | some requirement_spec =>
      match r.specifier with
      | some ss =>
        match pkg_specifier_set_to_version_list provider r.name ss with
        | none => .crash
        | some vlist =>
          if vlist.isEmpty then .err ⟨.noMatchingVersions⟩
          else finishConvert { requirement_spec with versions := vlist } when_list from_extra
      | none => finishConvert requirement_spec when_list from_extra

/-- A dependency triple `(dependency spec, when spec, dependency types)` of
`core._combine_dependencies` / `_find_dependency_satisfiability_conflicts`. -/
abbrev DepTriple := SSpec × SSpec × List String

/-- All ordered pairs `(l[i], l[j])` with `i < j`. -/
def pairsOf {α : Type} : List α → List (α × α)
  | [] => []
  | x :: xs => xs.map (fun y => (x, y)) ++ pairsOf xs

/-- `_find_dependency_satisfiability_conflicts`: group the triples by
dependency name and flag every pair whose when-specs intersect while the
dependency specs do not.  The reported `DependencyConflictError` is modelled
by the pair of triples its message is formatted from. -/
def find_dependency_satisfiability_conflicts (deps : List DepTriple) :
    List (DepTriple × DepTriple) :=
  let names := dedupKeepFirst (deps.filterMap (fun d => d.1.name))
  (names.map (fun name =>
    let pkg_deps := deps.filter (fun d => d.1.name = some name)
    (pairsOf pkg_deps).filter (fun p =>
      sintersects p.1.2.1 p.2.2.1 && !(sintersects p.1.1 p.2.1)))).flatten

/-- A packaging version with the given release components and no qualifiers. -/
def pvRel (r : List Nat) : PVersion := { release := r }

/-- The packaging alpha prerelease `r-aN`. -/
def pvAlpha (r : List Nat) (n : Nat) : PVersion := { release := r, pre := some (.a, n) }

/-- The spack final version with the given numeric release components. -/
def svRel (r : List Nat) : StandardVersion := ⟨r.map VComp.num, .final⟩

/-- A provider knowing two versions of the package `black`. -/
def provBlack : PackageProvider := fun n =>
  if n = "black" then .ok [pvRel [22,1,0], pvRel [23,1,0]] else .queryError

/-- A provider whose every query fails. -/
def noProv : PackageProvider := fun _ => .queryError

/-- The marker leaf `os_name == "posix"`: untranslatable, hence unevaluable. -/
def unevNode : MarkerNode := ⟨true, "os_name", "==", false, "posix"⟩

/-- The marker leaf `sys_platform != "zzz"`: statically true. -/
def truNode : MarkerNode := ⟨true, "sys_platform", "!=", false, "zzz"⟩

/-- The marker leaf `platform_system == "solaris"`: statically false. -/
def flsNode : MarkerNode := ⟨true, "platform_system", "==", false, "solaris"⟩

/-- The marker leaf `extra == "x"`: the `+x` when-spec. -/
def specNode : MarkerNode := ⟨true, "extra", "==", false, "x"⟩

/-- The version constraint `@:4.2` (everything below 4.3). -/
def ltRange : VersionList := [⟨typemin, svRel [4,3]⟩]

/-- The version constraint `@4.3:`. -/
def geRange : VersionList := [⟨svRel [4,3], nextVersion typemax⟩]

/-- The dependency triple `(py-pkg@:4.2, platform=windows, run)`. -/
def dWin1 : DepTriple :=
  ({ name := some "py-pkg", versions := ltRange }, platformSpec "windows", ["run"])

/-- The dependency triple `(py-pkg@4.3:, platform=windows, run)`. -/
def dWin2 : DepTriple :=
  ({ name := some "py-pkg", versions := geRange }, platformSpec "windows", ["run"])

/-- The dependency triple `(py-pkg@4.3:, platform=linux, run)`. -/
def dLin2 : DepTriple :=
  ({ name := some "py-pkg", versions := geRange }, platformSpec "linux", ["run"])

theorem natCompare_swap (a b : Nat) : (compare a b).swap = compare b a := by
  rcases Nat.lt_trichotomy a b with h | h | h
  · rw [Nat.compare_eq_lt.2 h, Nat.compare_eq_gt.2 h]; rfl
  · subst h; rw [Nat.compare_eq_eq.2 rfl]; rfl
  · rw [Nat.compare_eq_gt.2 h, Nat.compare_eq_lt.2 h]; rfl

theorem charListCmp_self : ∀ l : List Char, charListCmp l l = .eq
  | [] => rfl
  | c :: t => by
    have h : compare c.toNat c.toNat = .eq := Nat.compare_eq_eq.2 rfl
    simp [charListCmp, h, charListCmp_self t]

theorem charListCmp_swap : ∀ a b : List Char, (charListCmp a b).swap = charListCmp b a
  | [], [] => rfl
  | [], _ :: _ => rfl
  | _ :: _, [] => rfl
  | c :: cs, d :: ds => by
    simp only [charListCmp]
    rw [← natCompare_swap c.toNat d.toNat]
    cases compare c.toNat d.toNat with
    | lt => rfl
    | gt => rfl
    | eq => exact charListCmp_swap cs ds

theorem charListCmp_eq_iff : ∀ a b : List Char, charListCmp a b = .eq ↔ a = b
  | [], [] => by simp [charListCmp]
  | [], _ :: _ => by simp [charListCmp]
  | _ :: _, [] => by simp [charListCmp]
  | c :: cs, d :: ds => by
    cases h : compare c.toNat d.toNat with
    | lt =>
      have hne : c ≠ d := by
        intro hcd; rw [hcd, Nat.compare_eq_eq.2 rfl] at h; cases h
      simp [charListCmp, h, hne]
    | gt =>
      have hne : c ≠ d := by
        intro hcd; rw [hcd, Nat.compare_eq_eq.2 rfl] at h; cases h
      simp [charListCmp, h, hne]
    | eq =>
      have hcd : c = d := by
        have hinj : Function.Injective Char.toNat :=
          StrictMono.injective fun _ _ hlt => hlt
        exact hinj (Nat.compare_eq_eq.1 h)
      subst hcd
      simp [charListCmp, h, charListCmp_eq_iff cs ds]

theorem charListCmp_append_lt : ∀ (l : List Char) (d : Char) (ds : List Char),
    charListCmp l (l ++ d :: ds) = .lt
  | [], _, _ => rfl
  | c :: t, d, ds => by
    have h : compare c.toNat c.toNat = .eq := Nat.compare_eq_eq.2 rfl
    simp [charListCmp, h, charListCmp_append_lt t d ds]

theorem strCmp_self (s : String) : strCmp s s = .eq := charListCmp_self s.data

theorem strCmp_swap (s t : String) : (strCmp s t).swap = strCmp t s :=
  charListCmp_swap s.data t.data

theorem strCmp_eq_iff (s t : String) : strCmp s t = .eq ↔ s = t := by
  unfold strCmp
  rw [charListCmp_eq_iff]
  constructor
  · intro h
    cases s
    cases t
    exact congrArg String.mk h
  · intro h; rw [h]

theorem vcompCmp_self : ∀ c : VComp, vcompCmp c c = .eq
  | .str s => strCmp_self s
  | .num n => Nat.compare_eq_eq.2 rfl
  | .inf k => Nat.compare_eq_eq.2 rfl

theorem vcompCmp_swap : ∀ a b : VComp, (vcompCmp a b).swap = vcompCmp b a
  | .str s, .str t => strCmp_swap s t
  | .str _, .num _ => rfl
  | .str _, .inf _ => rfl
  | .num _, .str _ => rfl
  | .num n, .num m => natCompare_swap n m
  | .num _, .inf _ => rfl
  | .inf _, .str _ => rfl
  | .inf _, .num _ => rfl
  | .inf j, .inf k => natCompare_swap j k

theorem vcompCmp_eq_iff : ∀ a b : VComp, vcompCmp a b = .eq ↔ a = b
  | .str s, .str t => by
    simp only [vcompCmp]
    rw [strCmp_eq_iff]
    simp
  | .str _, .num _ => by simp [vcompCmp]
  | .str _, .inf _ => by simp [vcompCmp]
  | .num _, .str _ => by simp [vcompCmp]
  | .num n, .num m => by
    simp only [vcompCmp]
    rw [Nat.compare_eq_eq]
    simp
  | .num _, .inf _ => by simp [vcompCmp]
  | .inf _, .str _ => by simp [vcompCmp]
  | .inf _, .num _ => by simp [vcompCmp]
  | .inf j, .inf k => by
    simp only [vcompCmp]
    rw [Nat.compare_eq_eq]
    simp

theorem vcompCmp_bump : ∀ c : VComp, vcompCmp c (bumpComp c) = .lt
  | .str s => by
    show strCmp s (s ++ "0") = .lt
    show charListCmp s.data (s ++ "0").data = .lt
    have : (s ++ "0").data = s.data ++ ['0'] := by
      cases s; rfl
    rw [this]
    exact charListCmp_append_lt s.data '0' []
  | .num n => Nat.compare_eq_lt.2 (Nat.lt_succ_self n)
  | .inf k => Nat.compare_eq_lt.2 (Nat.lt_succ_self k)

theorem releaseCmp_self : ∀ l : List VComp, releaseCmp l l = .eq
  | [] => rfl
  | c :: t => by simp [releaseCmp, vcompCmp_self c, releaseCmp_self t]

theorem releaseCmp_swap : ∀ a b : List VComp, (releaseCmp a b).swap = releaseCmp b a
  | [], [] => rfl
  | [], _ :: _ => rfl
  | _ :: _, [] => rfl
  | c :: cs, d :: ds => by
    simp only [releaseCmp]
    rw [← vcompCmp_swap c d]
    cases vcompCmp c d with
    | lt => rfl
    | gt => rfl
    | eq => exact releaseCmp_swap cs ds

theorem releaseCmp_eq_iff : ∀ a b : List VComp, releaseCmp a b = .eq ↔ a = b
  | [], [] => by simp [releaseCmp]
  | [], _ :: _ => by simp [releaseCmp]
  | _ :: _, [] => by simp [releaseCmp]
  | c :: cs, d :: ds => by
    cases h : vcompCmp c d with
    | lt =>
      have hne : c ≠ d := fun hcd => by
        rw [hcd, vcompCmp_self] at h; cases h
      simp [releaseCmp, h, hne]
    | gt =>
      have hne : c ≠ d := fun hcd => by
        rw [hcd, vcompCmp_self] at h; cases h
      simp [releaseCmp, h, hne]
    | eq =>
      have hcd : c = d := (vcompCmp_eq_iff c d).1 h
      subst hcd
      simp [releaseCmp, h, releaseCmp_eq_iff cs ds]

theorem releaseCmp_append : ∀ (p u v : List VComp),
    releaseCmp (p ++ u) (p ++ v) = releaseCmp u v
  | [], _, _ => rfl
  | x :: p, u, v => by
    simp [releaseCmp, vcompCmp_self x, releaseCmp_append p u v]

/-- A proper prefix sorts strictly below its extension. -/
theorem releaseCmp_extend_lt (p : List VComp) (y : VComp) (ys : List VComp) :
    releaseCmp p (p ++ y :: ys) = .lt := by
  have := releaseCmp_append p [] (y :: ys)
  simpa using this

theorem prerelCmp_self : ∀ p : Prerel, prerelCmp p p = .eq
  | .alpha n => Nat.compare_eq_eq.2 rfl
  | .beta n => Nat.compare_eq_eq.2 rfl
  | .rc n => Nat.compare_eq_eq.2 rfl
  | .final => rfl

theorem prerelCmp_swap : ∀ a b : Prerel, (prerelCmp a b).swap = prerelCmp b a
  | .alpha n, .alpha m => natCompare_swap n m
  | .alpha _, .beta _ => rfl
  | .alpha _, .rc _ => rfl
  | .alpha _, .final => rfl
  | .beta _, .alpha _ => rfl
  | .beta n, .beta m => natCompare_swap n m
  | .beta _, .rc _ => rfl
  | .beta _, .final => rfl
  | .rc _, .alpha _ => rfl
  | .rc _, .beta _ => rfl
  | .rc n, .rc m => natCompare_swap n m
  | .rc _, .final => rfl
  | .final, .alpha _ => rfl
  | .final, .beta _ => rfl
  | .final, .rc _ => rfl
  | .final, .final => rfl

theorem svCmp_swap (a b : StandardVersion) : (svCmp a b).swap = svCmp b a := by
  unfold svCmp
  rw [← releaseCmp_swap a.release b.release]
  cases releaseCmp a.release b.release with
  | lt => rfl
  | gt => rfl
  | eq => exact prerelCmp_swap a.pre b.pre

theorem svLtB_asymm {a b : StandardVersion} (h : svLtB a b = true) : svLtB b a = false := by
  unfold svLtB at *
  have hc : svCmp a b = .lt := by
    cases hcc : svCmp a b
    · rfl
    · rw [hcc] at h; exact absurd h (by decide)
    · rw [hcc] at h; exact absurd h (by decide)
  have hgt : svCmp b a = .gt := by rw [← svCmp_swap a b, hc]; rfl
  rw [hgt]; rfl

/-- `a ≤ b` is the negation of `b < a`. -/
theorem svLeB_iff_not_lt (a b : StandardVersion) : svLeB a b = !svLtB b a := by
  unfold svLeB svLtB
  rw [← svCmp_swap a b]
  cases svCmp a b <;> rfl

theorem svLeB_refl (a : StandardVersion) : svLeB a a = true := by
  unfold svLeB svCmp
  rw [releaseCmp_self, prerelCmp_self]
  rfl

theorem bumpLast_append : ∀ (p : List VComp) (c : VComp),
    bumpLast (p ++ [c]) = p ++ [bumpComp c]
  | [], c => rfl
  | x :: p, c => by
    rcases List.exists_cons_of_ne_nil (l := p ++ [c]) (by simp) with ⟨y, ys, hp⟩
    rw [List.cons_append, hp]
    show x :: bumpLast (y :: ys) = x :: (p ++ [bumpComp c])
    rw [← hp, bumpLast_append p c]

theorem take_len_succ : ∀ (p : List VComp) (x : VComp) (xs : List VComp),
    (p ++ x :: xs).take (p.length + 1) = p ++ [x]
  | [], _, _ => rfl
  | y :: p, x, xs => by
    simp [List.take, take_len_succ p x xs]

/-- Key inclusion fact: any version whose release extends `q ++ [c]` lies
strictly below the next version of the truncation `q ++ [c]`. -/
theorem lt_next_up (q : List VComp) (c : VComp) (rest : List VComp) (p2 : Prerel) :
    svLtB ⟨q ++ c :: rest, p2⟩ (nextVersion ⟨q ++ [c], .final⟩) = true := by
  show svLtB ⟨q ++ c :: rest, p2⟩ ⟨bumpLast (q ++ [c]), .final⟩ = true
  rw [bumpLast_append]
  unfold svLtB svCmp
  have h1 : releaseCmp (q ++ c :: rest) (q ++ [bumpComp c]) = .lt := by
    rw [releaseCmp_append q (c :: rest) [bumpComp c]]
    show (match vcompCmp c (bumpComp c) with
      | .eq => releaseCmp rest []
      | o => o) = .lt
    rw [vcompCmp_bump c]
  rw [h1]
  rfl

theorem commonPrefixLen_le : ∀ a b : List VComp,
    commonPrefixLen a b ≤ a.length ∧ commonPrefixLen a b ≤ b.length
  | [], [] => by simp [commonPrefixLen]
  | [], _ :: _ => by simp [commonPrefixLen]
  | _ :: _, [] => by simp [commonPrefixLen]
  | x :: xs, y :: ys => by
    by_cases h : x = y
    · have := commonPrefixLen_le xs ys
      simp [commonPrefixLen, h, Nat.succ_le_succ, this.1, this.2]
    · simp [commonPrefixLen, h]

/-- Decomposition at the first differing index (when both lists are longer
than the common prefix). -/
theorem commonPrefixLen_lt_spec : ∀ (a b : List VComp),
    commonPrefixLen a b < a.length → commonPrefixLen a b < b.length →
    ∃ q x xs y ys, a = q ++ x :: xs ∧ b = q ++ y :: ys ∧
      q.length = commonPrefixLen a b ∧ x ≠ y
  | [], _, ha, _ => by simp [commonPrefixLen] at ha
  | _ :: _, [], _, hb => by simp [commonPrefixLen] at hb
  | x :: xs, y :: ys, ha, hb => by
    by_cases h : x = y
    · subst h
      rw [show commonPrefixLen (x :: xs) (x :: ys) = commonPrefixLen xs ys + 1 by
        simp [commonPrefixLen]] at ha hb ⊢
      have ha2 : commonPrefixLen xs ys < xs.length := by simpa using ha
      have hb2 : commonPrefixLen xs ys < ys.length := by simpa using hb
      obtain ⟨q, u, us, v, vs, h1, h2, h3, h4⟩ := commonPrefixLen_lt_spec xs ys ha2 hb2
      exact ⟨x :: q, u, us, v, vs, by simp [h1], by simp [h2], by simp [h3], h4⟩
    · refine ⟨[], x, xs, y, ys, rfl, rfl, ?_, h⟩
      simp [commonPrefixLen, h]

/-- When the common prefix covers all of `a`, `a` is a prefix of `b`. -/
theorem commonPrefixLen_full_spec : ∀ (a b : List VComp),
    commonPrefixLen a b = a.length → a.length ≤ b.length →
    b = a ++ b.drop a.length
  | [], b, _, _ => by simp
  | _ :: _, [], h, hl => by simp at hl
  | x :: xs, y :: ys, h, hl => by
    by_cases hxy : x = y
    · subst hxy
      rw [show commonPrefixLen (x :: xs) (x :: ys) = commonPrefixLen xs ys + 1 by
        simp [commonPrefixLen]] at h
      have h2 : commonPrefixLen xs ys = xs.length := by simpa using h
      have hl2 : xs.length ≤ ys.length := by simpa using hl
      have := commonPrefixLen_full_spec xs ys h2 hl2
      simp only [List.length_cons, List.cons_append, List.drop_succ_cons]
      exact congrArg (x :: ·) this
    · rw [show commonPrefixLen (x :: xs) (y :: ys) = 0 by simp [commonPrefixLen, hxy]] at h
      simp at h

/-- Common-prefix agreement below the common prefix length. -/
theorem commonPrefixLen_take : ∀ (a b : List VComp) (k : Nat),
    k ≤ commonPrefixLen a b → a.take k = b.take k
  | [], [], _, _ => by simp
  | [], _ :: _, k, hk => by simp [commonPrefixLen] at hk; simp [hk]
  | _ :: _, [], k, hk => by simp [commonPrefixLen] at hk; simp [hk]
  | x :: xs, y :: ys, k, hk => by
    by_cases hxy : x = y
    · subst hxy
      cases k with
      | zero => simp
      | succ k2 =>
        rw [show commonPrefixLen (x :: xs) (x :: ys) = commonPrefixLen xs ys + 1 by
          simp [commonPrefixLen]] at hk
        have := commonPrefixLen_take xs ys k2 (by omega)
        simp [List.take, this]
    · rw [show commonPrefixLen (x :: xs) (y :: ys) = 0 by simp [commonPrefixLen, hxy]] at hk
      simp at hk
      simp [hk]

/-- Specification of the `_best_lowerbound` scan: under `prev < curr` (on
releases), the scan stops at the first differing component, which is smaller
on the `prev` side. -/
theorem firstLtIdx_spec : ∀ (a b : List VComp) (i : Nat),
    firstLtIdx a b = some i → releaseCmp a b = .lt →
    ∃ q x xs y ys, a = q ++ x :: xs ∧ b = q ++ y :: ys ∧
      q.length = i ∧ vcompCmp x y = .lt
  | [], [], i, hf, _ => by simp [firstLtIdx] at hf
  | [], _ :: _, i, hf, _ => by simp [firstLtIdx] at hf
  | _ :: _, [], i, hf, _ => by simp [firstLtIdx] at hf
  | x :: xs, y :: ys, i, hf, hc => by
    by_cases hxy : vcompCmp x y = .lt
    · rw [show firstLtIdx (x :: xs) (y :: ys) = some 0 by
        simp [firstLtIdx, hxy]] at hf
      exact ⟨[], x, xs, y, ys, rfl, rfl, by simpa using hf, hxy⟩
    · rw [show firstLtIdx (x :: xs) (y :: ys) = (firstLtIdx xs ys).map (· + 1) by
        simp [firstLtIdx, hxy]] at hf
      cases hf2 : firstLtIdx xs ys with
      | none => rw [hf2] at hf; cases hf
      | some i2 =>
        rw [hf2] at hf
        simp at hf
        cases hcc : vcompCmp x y with
        | lt => exact absurd hcc hxy
        | gt =>
          rw [show releaseCmp (x :: xs) (y :: ys) = .gt by
            show (match vcompCmp x y with
              | .eq => releaseCmp xs ys
              | o => o) = .gt
            rw [hcc]] at hc
          cases hc
        | eq =>
          have hxy2 : x = y := (vcompCmp_eq_iff x y).1 hcc
          subst hxy2
          have hc2 : releaseCmp xs ys = .lt := by
            rw [show releaseCmp (x :: xs) (x :: ys) = releaseCmp xs ys by
              show (match vcompCmp x x with
                | .eq => releaseCmp xs ys
                | o => o) = releaseCmp xs ys
              rw [vcompCmp_self]] at hc
            exact hc
          obtain ⟨q, u, us, v, vs, h1, h2, h3, h4⟩ := firstLtIdx_spec xs ys i2 hf2 hc2
          exact ⟨x :: q, u, us, v, vs, by simp [h1], by simp [h2], by simp [h3, ← hf], h4⟩

/-- When the scan finds no index and `prev < curr` on releases, `prev`'s
release is a proper or improper prefix of `curr`'s. -/
theorem firstLtIdx_none_spec : ∀ (a b : List VComp),
    firstLtIdx a b = none → releaseCmp a b = .lt →
    a.length ≤ b.length ∧ b.take a.length = a
  | [], b, _, hc => by
    constructor
    · cases b with
      | nil => cases hc
      | cons y ys => simp
    · simp
  | _ :: _, [], _, hc => by cases hc
  | x :: xs, y :: ys, hf, hc => by
    by_cases hxy : vcompCmp x y = .lt
    · rw [show firstLtIdx (x :: xs) (y :: ys) = some 0 by simp [firstLtIdx, hxy]] at hf
      cases hf
    · rw [show firstLtIdx (x :: xs) (y :: ys) = (firstLtIdx xs ys).map (· + 1) by
        simp [firstLtIdx, hxy]] at hf
      cases hf2 : firstLtIdx xs ys with
      | some i2 => rw [hf2] at hf; cases hf
      | none =>
        cases hcc : vcompCmp x y with
        | lt => exact absurd hcc hxy
        | gt =>
          rw [show releaseCmp (x :: xs) (y :: ys) = .gt by
            show (match vcompCmp x y with
              | .eq => releaseCmp xs ys
              | o => o) = .gt
            rw [hcc]] at hc
          cases hc
        | eq =>
          have hxy2 : x = y := (vcompCmp_eq_iff x y).1 hcc
          subst hxy2
          have hc2 : releaseCmp xs ys = .lt := by
            rw [show releaseCmp (x :: xs) (x :: ys) = releaseCmp xs ys by
              show (match vcompCmp x x with
                | .eq => releaseCmp xs ys
                | o => o) = releaseCmp xs ys
              rw [vcompCmp_self]] at hc
            exact hc
          have := firstLtIdx_none_spec xs ys hf2 hc2
          constructor
          · simpa using this.1
          · simp [List.take, this.2]

/-- Decomposition of a list at its leading run of zero components. -/
theorem countLeadingZeros_spec : ∀ l : List VComp,
    ∃ rest, l = List.replicate (countLeadingZeros l) (VComp.num 0) ++ rest ∧
      (rest = [] ∨ ∃ c cs, rest = c :: cs ∧ c ≠ VComp.num 0) ∧
      countLeadingZeros l + rest.length = l.length
  | [] => ⟨[], by simp [countLeadingZeros]⟩
  | .num 0 :: t => by
    obtain ⟨rest, h1, h2, h3⟩ := countLeadingZeros_spec t
    refine ⟨rest, ?_, h2, ?_⟩
    · rw [show countLeadingZeros (.num 0 :: t) = countLeadingZeros t + 1 from rfl]
      rw [List.replicate_succ]
      simpa using h1
    · rw [show countLeadingZeros (.num 0 :: t) = countLeadingZeros t + 1 from rfl]
      simp at h3 ⊢
      omega
  | .num (n + 1) :: t =>
    ⟨.num (n + 1) :: t, by simp [countLeadingZeros], .inr ⟨_, _, rfl, by simp⟩, by
      simp [countLeadingZeros]⟩
  | .str s :: t =>
    ⟨.str s :: t, by simp [countLeadingZeros], .inr ⟨_, _, rfl, by simp⟩, by
      simp [countLeadingZeros]⟩
  | .inf k :: t =>
    ⟨.inf k :: t, by simp [countLeadingZeros], .inr ⟨_, _, rfl, by simp⟩, by
      simp [countLeadingZeros]⟩

/-- All components of a release tuple are numeric (no post/dev/local
string components, no infinity components). -/
def allNumeric (l : List VComp) : Bool :=
  l.all (fun c => match c with
    | .num _ => true
    | _ => false)

/-- `b` extends `a` by at least one trailing zero component. -/
def isStrictZeroExtension (a b : List VComp) : Bool :=
  decide (a.length < b.length) &&
    (b == a ++ List.replicate (b.length - a.length) (VComp.num 0))

theorem svLtB_false_of_le {a b : StandardVersion} (h : svLeB a b = true) :
    svLtB b a = false := by
  have := svLeB_iff_not_lt a b
  rw [h] at this
  cases hb : svLtB b a
  · rfl
  · rw [hb] at this; cases this

theorem allNumeric_mem {l : List VComp} (h : allNumeric l = true) {c : VComp}
    (hc : c ∈ l) : ∃ k, c = VComp.num k := by
  have := (List.all_eq_true.1 h) c hc
  cases c with
  | num k => exact ⟨k, rfl⟩
  | str s => cases this
  | inf k => cases this

theorem take_ne_nil_of_ne_nil {l : List VComp} (h : l ≠ []) {k : Nat} (hk : 1 ≤ k) :
    l.take k ≠ [] := by
  cases l with
  | nil => exact absurd rfl h
  | cons x xs =>
    cases k with
    | zero => omega
    | succ k2 => simp

/-- Minimality step: if `nxt`'s release starts with the first `k ≥ 1`
components of `curr`'s, then the range bounded above by `curr.up_to(k)`
still contains `nxt`. -/
theorem min_step (curr nxt : StandardVersion) (k : Nat) (hk : 1 ≤ k)
    (h5 : curr.release ≠ [])
    (hdec : ∃ u, nxt.release = curr.release.take k ++ u) :
    svLtB nxt (nextVersion (up_to curr k)) = true := by
  obtain ⟨u, hu⟩ := hdec
  have ht : curr.release.take k ≠ [] := take_ne_nil_of_ne_nil h5 hk
  obtain ⟨q, c, hqc⟩ : ∃ q c, curr.release.take k = q ++ [c] := by
    rcases List.eq_nil_or_concat' (curr.release.take k) with h | h
    · exact absurd h ht
    · exact h
  have hnxt : nxt.release = q ++ c :: u := by
    rw [hu, hqc]
    simp
  have hup : up_to curr k = ⟨q ++ [c], .final⟩ := by
    unfold up_to
    rw [hqc]
  rw [hup]
  have hmain := lt_next_up q c u nxt.pre
  have hnxt2 : nxt = ⟨q ++ c :: u, nxt.pre⟩ := by
    cases nxt with
    | mk rel pre => simp at hnxt ⊢; exact hnxt
  rw [hnxt2]
  exact hmain

theorem allNumeric_cons {c : VComp} {t : List VComp}
    (h : allNumeric (c :: t) = true) : (∃ k, c = VComp.num k) ∧ allNumeric t = true := by
  refine ⟨allNumeric_mem h (by simp), ?_⟩
  unfold allNumeric at h ⊢
  simp only [List.all_cons, Bool.and_eq_true] at h
  exact h.2

/-- The zero-padded successor bound does not exceed any nonzero numeric
extension: `(0,…,0,1) ≤ rest` whenever `rest` is numeric, of the same
length, and not all zeros. -/
theorem zeros_one_le : ∀ (d : Nat) (rest : List VComp),
    rest.length = d + 1 → allNumeric rest = true →
    rest ≠ List.replicate (d + 1) (VComp.num 0) →
    releaseCmp (List.replicate d (VComp.num 0) ++ [VComp.num 1]) rest ≠ .gt := by
  intro d
  induction d with
  | zero =>
    intro rest hlen hnum hne
    cases rest with
    | nil => simp at hlen
    | cons c t =>
      cases t with
      | cons _ _ => simp at hlen
      | nil =>
        obtain ⟨⟨k, hk⟩, _⟩ := allNumeric_cons hnum
        subst hk
        have hk0 : k ≠ 0 := by
          intro h0
          subst h0
          exact hne (by simp [List.replicate])
        show (match vcompCmp (.num 1) (.num k) with
          | .eq => releaseCmp [] []
          | o => o) ≠ .gt
        show (match compare 1 k with
          | .eq => releaseCmp [] []
          | o => o) ≠ .gt
        rcases Nat.lt_trichotomy 1 k with h | h | h
        · rw [Nat.compare_eq_lt.2 h]; simp
        · subst h; rw [Nat.compare_eq_eq.2 rfl]; simp [releaseCmp]
        · have hzero : k = 0 := by omega
          exact absurd hzero hk0
  | succ d2 ih =>
    intro rest hlen hnum hne
    cases rest with
    | nil => simp at hlen
    | cons c t =>
      obtain ⟨⟨k, hk⟩, hnum2⟩ := allNumeric_cons hnum
      subst hk
      rw [List.replicate_succ, List.cons_append]
      cases k with
      | zero =>
        show (match vcompCmp (.num 0) (.num 0) with
          | .eq => releaseCmp (List.replicate d2 (VComp.num 0) ++ [VComp.num 1]) t
          | o => o) ≠ .gt
        rw [vcompCmp_self]
        have hlen2 : t.length = d2 + 1 := by simpa using hlen
        have hne2 : t ≠ List.replicate (d2 + 1) (VComp.num 0) := by
          intro h
          exact hne (by rw [List.replicate_succ, h])
        exact ih t hlen2 hnum2 hne2
      | succ k2 =>
        show (match vcompCmp (.num 0) (.num (k2 + 1)) with
          | .eq => releaseCmp (List.replicate d2 (VComp.num 0) ++ [VComp.num 1]) t
          | o => o) ≠ .gt
        show (match compare 0 (k2 + 1) with
          | .eq => releaseCmp (List.replicate d2 (VComp.num 0) ++ [VComp.num 1]) t
          | o => o) ≠ .gt
        rw [Nat.compare_eq_lt.2 (by omega)]
        simp


theorem bump_le_num {x y : VComp} (hxy : vcompCmp x y = .lt)
    (hy : ∃ k, y = VComp.num k) : vcompCmp (bumpComp x) y ≠ .gt := by
  obtain ⟨k, hk⟩ := hy
  subst hk
  cases x with
  | num n =>
    have hn : n < k := Nat.compare_eq_lt.1 hxy
    show compare (n + 1) k ≠ .gt
    intro hcon
    have := Nat.compare_eq_gt.1 hcon
    omega
  | str s =>
    show Ordering.lt ≠ .gt
    simp
  | inf j => cases hxy

/-- Every version with a nonempty release is strictly below its successor
version. -/
theorem lt_nextVersion (v : StandardVersion) (h : v.release ≠ []) :
    svLtB v (nextVersion v) = true := by
  cases hv : v with
  | mk rel pre =>
    cases pre with
    | alpha n =>
      show svLtB ⟨rel, .alpha n⟩ ⟨rel, .alpha (n + 1)⟩ = true
      unfold svLtB svCmp
      rw [releaseCmp_self]
      show ((prerelCmp (.alpha n) (.alpha (n + 1)) : Ordering) == .lt) = true
      show ((compare n (n + 1) : Ordering) == .lt) = true
      rw [Nat.compare_eq_lt.2 (Nat.lt_succ_self n)]
      rfl
    | beta n =>
      show svLtB ⟨rel, .beta n⟩ ⟨rel, .beta (n + 1)⟩ = true
      unfold svLtB svCmp
      rw [releaseCmp_self]
      show ((prerelCmp (.beta n) (.beta (n + 1)) : Ordering) == .lt) = true
      show ((compare n (n + 1) : Ordering) == .lt) = true
      rw [Nat.compare_eq_lt.2 (Nat.lt_succ_self n)]
      rfl
    | rc n =>
      show svLtB ⟨rel, .rc n⟩ ⟨rel, .rc (n + 1)⟩ = true
      unfold svLtB svCmp
      rw [releaseCmp_self]
      show ((prerelCmp (.rc n) (.rc (n + 1)) : Ordering) == .lt) = true
      show ((compare n (n + 1) : Ordering) == .lt) = true
      rw [Nat.compare_eq_lt.2 (Nat.lt_succ_self n)]
      rfl
    | final =>
      have hrel : rel ≠ [] := by rw [hv] at h; exact h
      obtain ⟨q, c, hqc⟩ : ∃ q c, rel = q ++ [c] := by
        rcases List.eq_nil_or_concat' rel with h2 | h2
        · exact absurd h2 hrel
        · exact h2
      show svLtB ⟨rel, .final⟩ ⟨bumpLast rel, .final⟩ = true
      rw [hqc, bumpLast_append]
      unfold svLtB svCmp
      have : releaseCmp (q ++ [c]) (q ++ [bumpComp c]) = .lt := by
        rw [releaseCmp_append]
        show (match vcompCmp c (bumpComp c) with
          | .eq => releaseCmp [] []
          | o => o) = .lt
        rw [vcompCmp_bump]
      rw [this]
      rfl

theorem best_upperbound_spec (curr nxt : StandardVersion)
    (h1 : svLtB curr nxt = true)
    (h2 : nxt.pre = .final)
    (h3 : allNumeric nxt.release = true)
    (h4 : isStrictZeroExtension curr.release nxt.release = false)
    (h5 : curr.release ≠ []) :
    ∃ b, best_upperbound curr nxt = some b ∧
      svLtB curr (nextVersion b) = true ∧
      svLtB nxt (nextVersion b) = false ∧
      (∀ k, 1 ≤ k → k < b.release.length →
        svLtB nxt (nextVersion (up_to curr k)) = true) ∧
      (commonPrefixLen curr.release nxt.release = curr.release.length →
        curr.release.length < nxt.release.length →
        b.release = curr.release ++
          List.replicate (nxt.release.length - curr.release.length) (VComp.num 0)) := by
  by_cases hA : commonPrefixLen curr.release nxt.release = curr.release.length ∧
      curr.release.length < nxt.release.length
  · -- strict-prefix case: zero-padded bound
    obtain ⟨hAi, hAlen⟩ := hA
    have hpref := commonPrefixLen_full_spec curr.release nxt.release hAi (le_of_lt hAlen)
    obtain ⟨d2, hd2⟩ : ∃ d2, nxt.release.length - curr.release.length = d2 + 1 :=
      ⟨nxt.release.length - curr.release.length - 1, by omega⟩
    have hnumrest : allNumeric (nxt.release.drop curr.release.length) = true := by
      unfold allNumeric at h3 ⊢
      rw [List.all_eq_true] at h3 ⊢
      intro c hc
      exact h3 c (List.mem_of_mem_drop hc)
    have hne : nxt.release.drop curr.release.length ≠
        List.replicate (nxt.release.length - curr.release.length) (VComp.num 0) := by
      intro hcon
      have hzx : isStrictZeroExtension curr.release nxt.release = true := by
        unfold isStrictZeroExtension
        rw [Bool.and_eq_true]
        refine ⟨decide_eq_true hAlen, ?_⟩
        rw [← hcon]
        exact beq_iff_eq.2 hpref
      rw [hzx] at h4
      cases h4
    have hbu : best_upperbound curr nxt = some ⟨curr.release ++
        List.replicate (nxt.release.length - curr.release.length) (VComp.num 0), .final⟩ := by
      unfold best_upperbound
      rw [h1]
      simp only [if_true]
      rw [if_pos ⟨hAi, hAlen⟩]
    have hbump : bumpLast (curr.release ++
        List.replicate (nxt.release.length - curr.release.length) (VComp.num 0)) =
        curr.release ++ List.replicate d2 (VComp.num 0) ++ [VComp.num 1] := by
      rw [hd2, List.replicate_succ', ← List.append_assoc, bumpLast_append]
      rfl
    refine ⟨_, hbu, ?_, ?_, ?_, ?_⟩
    · -- curr is in the range
      show svLtB curr ⟨bumpLast _, .final⟩ = true
      rw [hbump]
      unfold svLtB svCmp
      obtain ⟨y, ys, hys⟩ := List.exists_cons_of_ne_nil
        (l := List.replicate d2 (VComp.num 0) ++ [VComp.num 1]) (by simp)
      rw [List.append_assoc, hys, releaseCmp_extend_lt]
      rfl
    · -- nxt is excluded
      apply svLtB_false_of_le
      show svLeB ⟨bumpLast _, .final⟩ nxt = true
      rw [hbump]
      unfold svLeB svCmp
      have hsplit : curr.release ++ List.replicate d2 (VComp.num 0) ++ [VComp.num 1] =
          curr.release ++ (List.replicate d2 (VComp.num 0) ++ [VComp.num 1]) := by
        simp
      rw [hsplit]
      conv_lhs => rw [hpref]
      rw [releaseCmp_append]
      have hz := zeros_one_le d2 (nxt.release.drop curr.release.length)
        (by simp; omega) hnumrest (by rw [← hd2]; exact hne)
      cases hrc : releaseCmp (List.replicate d2 (VComp.num 0) ++ [VComp.num 1])
          (nxt.release.drop curr.release.length) with
      | lt => rfl
      | eq => rw [h2, prerelCmp_self]; rfl
      | gt => exact absurd hrc hz
    · -- minimality
      intro k hk1 hk2
      apply min_step curr nxt k hk1 h5
      by_cases hkc : k ≤ curr.release.length
      · have hagree : curr.release.take k = nxt.release.take k :=
          commonPrefixLen_take curr.release nxt.release k (by omega)
        exact ⟨nxt.release.drop k, by rw [hagree]; simp⟩
      · have hfull : curr.release.take k = curr.release :=
          List.take_all_of_le (by omega)
        exact ⟨nxt.release.drop curr.release.length, by rw [hfull]; exact hpref⟩
    · intro _ _
      rfl
  · by_cases hB : commonPrefixLen curr.release nxt.release =
        min curr.release.length nxt.release.length
    · -- equal releases: the bound is curr itself, keeping its prerelease
      have hrel : curr.release = nxt.release := by
        rcases Nat.le_total curr.release.length nxt.release.length with hle | hle
        · rw [Nat.min_eq_left hle] at hB
          have heq : curr.release.length = nxt.release.length := by
            rcases Nat.lt_or_ge curr.release.length nxt.release.length with hlt | hge
            · exact absurd ⟨hB, hlt⟩ hA
            · omega
          have htake := commonPrefixLen_take curr.release nxt.release
            curr.release.length (by omega)
          rw [List.take_all_of_le (le_refl _), List.take_all_of_le (by omega)] at htake
          exact htake
        · rw [Nat.min_eq_right hle] at hB
          by_cases heq : nxt.release.length = curr.release.length
          · have htake := commonPrefixLen_take curr.release nxt.release
              nxt.release.length (by omega)
            rw [List.take_all_of_le (by omega), List.take_all_of_le (le_refl _)] at htake
            exact htake
          · exfalso
            have hlt2 : nxt.release.length < curr.release.length := by omega
            have htake := commonPrefixLen_take curr.release nxt.release
              nxt.release.length (by omega)
            rw [List.take_all_of_le (le_refl _)] at htake
            have hdec : curr.release = nxt.release ++
                curr.release.drop nxt.release.length := by
              conv_lhs => rw [← List.take_append_drop nxt.release.length curr.release]
              rw [htake]
            obtain ⟨y, ys, hys⟩ := List.exists_cons_of_ne_nil
              (l := curr.release.drop nxt.release.length)
              (by
                intro hcon
                rw [hcon] at hdec
                simp at hdec
                rw [hdec] at hlt2
                omega)
            have hgt : releaseCmp curr.release nxt.release = .gt := by
              rw [← releaseCmp_swap nxt.release curr.release]
              rw [hdec, hys, releaseCmp_extend_lt]
              rfl
            unfold svLtB svCmp at h1
            rw [hgt] at h1
            cases h1
      have hple : prerelCmp curr.pre nxt.pre = .lt := by
        unfold svLtB svCmp at h1
        rw [hrel, releaseCmp_self] at h1
        cases hpp : prerelCmp curr.pre nxt.pre
        · rfl
        · rw [hpp] at h1; cases h1
        · rw [hpp] at h1; cases h1
      have hbu : best_upperbound curr nxt = some curr := by
        unfold best_upperbound
        rw [h1]
        simp only [if_true]
        rw [if_neg hA, if_pos hB]
      have hcurrne : curr.pre ≠ .final := by
        intro hcon
        rw [hcon, h2, prerelCmp_self] at hple
        cases hple
      refine ⟨_, hbu, lt_nextVersion curr h5, ?_, ?_, ?_⟩
      · -- nxt excluded: the bumped prerelease still sorts below FINAL
        apply svLtB_false_of_le
        unfold svLeB svCmp
        cases hp : curr.pre with
        | final => exact absurd hp hcurrne
        | alpha n =>
          have hnv : nextVersion curr = ⟨curr.release, .alpha (n + 1)⟩ := by
            unfold nextVersion
            rw [hp]
          rw [hnv]
          show ((match releaseCmp curr.release nxt.release with
            | .eq => prerelCmp (.alpha (n + 1)) nxt.pre
            | o => o) != .gt) = true
          rw [hrel, releaseCmp_self, h2]
          rfl
        | beta n =>
          have hnv : nextVersion curr = ⟨curr.release, .beta (n + 1)⟩ := by
            unfold nextVersion
            rw [hp]
          rw [hnv]
          show ((match releaseCmp curr.release nxt.release with
            | .eq => prerelCmp (.beta (n + 1)) nxt.pre
            | o => o) != .gt) = true
          rw [hrel, releaseCmp_self, h2]
          rfl
        | rc n =>
          have hnv : nextVersion curr = ⟨curr.release, .rc (n + 1)⟩ := by
            unfold nextVersion
            rw [hp]
          rw [hnv]
          show ((match releaseCmp curr.release nxt.release with
            | .eq => prerelCmp (.rc (n + 1)) nxt.pre
            | o => o) != .gt) = true
          rw [hrel, releaseCmp_self, h2]
          rfl
      · -- minimality
        intro k hk1 hk2
        apply min_step curr nxt k hk1 h5
        refine ⟨nxt.release.drop k, ?_⟩
        rw [hrel]
        simp
      · intro h6 h7
        exact absurd ⟨h6, h7⟩ hA
    · -- first differing component below both lengths
      have hle := commonPrefixLen_le curr.release nxt.release
      have hiltc : commonPrefixLen curr.release nxt.release < curr.release.length := by
        rcases Nat.lt_or_ge (commonPrefixLen curr.release nxt.release)
          curr.release.length with h | h
        · exact h
        · have hic : commonPrefixLen curr.release nxt.release = curr.release.length := by
            omega
          rcases Nat.lt_trichotomy curr.release.length nxt.release.length with hl | hl | hl
          · exact absurd ⟨hic, hl⟩ hA
          · exact absurd (by omega : commonPrefixLen curr.release nxt.release =
              min curr.release.length nxt.release.length) hB
          · have := hle.2
            omega
      have hiltn : commonPrefixLen curr.release nxt.release < nxt.release.length := by
        rcases Nat.lt_or_ge (commonPrefixLen curr.release nxt.release)
          nxt.release.length with h | h
        · exact h
        · have hic : commonPrefixLen curr.release nxt.release = nxt.release.length := by
            have := hle.2
            omega
          have : commonPrefixLen curr.release nxt.release =
              min curr.release.length nxt.release.length := by
            omega
          exact absurd this hB
      obtain ⟨q, x, xs, y, ys, hc1, hc2, hc3, hc4⟩ :=
        commonPrefixLen_lt_spec curr.release nxt.release hiltc hiltn
      have hxy : vcompCmp x y = .lt := by
        have hcl : releaseCmp curr.release nxt.release = .lt := by
          unfold svLtB svCmp at h1
          cases hrc : releaseCmp curr.release nxt.release with
          | lt => rfl
          | gt => rw [hrc] at h1; cases h1
          | eq =>
            exfalso
            have := (releaseCmp_eq_iff curr.release nxt.release).1 hrc
            rw [hc1, hc2] at this
            have := List.append_cancel_left this
            simp at this
            exact hc4 this.1
        rw [hc1, hc2, releaseCmp_append] at hcl
        cases hcc : vcompCmp x y with
        | lt => rfl
        | eq => exact absurd ((vcompCmp_eq_iff x y).1 hcc) hc4
        | gt =>
          rw [show releaseCmp (x :: xs) (y :: ys) = .gt by
            show (match vcompCmp x y with
              | .eq => releaseCmp xs ys
              | o => o) = .gt
            rw [hcc]] at hcl
          cases hcl
      have hynum : ∃ k, y = VComp.num k := by
        refine allNumeric_mem h3 ?_
        rw [hc2]
        simp
      have hbu : best_upperbound curr nxt =
          some (up_to curr (commonPrefixLen curr.release nxt.release + 1)) := by
        unfold best_upperbound
        rw [h1]
        simp only [if_true]
        rw [if_neg hA, if_neg hB]
      have hup : up_to curr (commonPrefixLen curr.release nxt.release + 1) =
          ⟨q ++ [x], .final⟩ := by
        unfold up_to
        rw [← hc3, hc1, take_len_succ]
      refine ⟨_, hbu, ?_, ?_, ?_, ?_⟩
      · -- curr in range
        rw [hup]
        have := lt_next_up q x xs curr.pre
        have hcurr2 : curr = ⟨q ++ x :: xs, curr.pre⟩ := by
          cases curr with
          | mk rel pre => simp at hc1 ⊢; exact hc1
        rw [hcurr2] at *
        exact this
      · -- nxt excluded
        rw [hup]
        apply svLtB_false_of_le
        show svLeB ⟨bumpLast (q ++ [x]), .final⟩ nxt = true
        rw [bumpLast_append]
        unfold svLeB svCmp
        conv_lhs => rw [hc2]
        rw [releaseCmp_append]
        have hble := bump_le_num hxy hynum
        cases hbc : vcompCmp (bumpComp x) y with
        | lt =>
          rw [show releaseCmp [bumpComp x] (y :: ys) = .lt by
            show (match vcompCmp (bumpComp x) y with
              | .eq => releaseCmp [] ys
              | o => o) = .lt
            rw [hbc]]
          rfl
        | gt => exact absurd hbc hble
        | eq =>
          rw [show releaseCmp [bumpComp x] (y :: ys) = releaseCmp [] ys by
            show (match vcompCmp (bumpComp x) y with
              | .eq => releaseCmp [] ys
              | o => o) = releaseCmp [] ys
            rw [hbc]]
          cases ys with
          | nil =>
            show ((match releaseCmp [] ([] : List VComp) with
              | .eq => prerelCmp Prerel.final nxt.pre
              | o => o) != .gt) = true
            rw [show releaseCmp [] ([] : List VComp) = .eq from rfl, h2, prerelCmp_self]
            rfl
          | cons z zs =>
            show ((match releaseCmp [] (z :: zs) with
              | .eq => prerelCmp Prerel.final nxt.pre
              | o => o) != .gt) = true
            rfl
      · -- minimality
        intro k hk1 hk2
        apply min_step curr nxt k hk1 h5
        have hklei : k ≤ commonPrefixLen curr.release nxt.release := by
          rw [hup] at hk2
          simp at hk2
          omega
        have hagree : curr.release.take k = nxt.release.take k :=
          commonPrefixLen_take curr.release nxt.release k hklei
        exact ⟨nxt.release.drop k, by rw [hagree]; simp⟩
      · intro h6 h7
        exact absurd ⟨h6, h7⟩ hA

/-- Specification of `_best_lowerbound` on the boundary pairs the amended
claim covers: when the included version `curr` is a final release (or the
excluded `prev` is a prerelease of it), the emitted lower bound excludes
`prev` and does not exceed `curr` (so the run's first version stays in the
range). -/
theorem best_lowerbound_spec (prev curr : StandardVersion)
    (h1 : svLtB prev curr = true)
    (hpre : curr.pre = .final ∨ curr.release = prev.release) :
    ∃ lo, best_lowerbound prev curr = some lo ∧
      svLtB prev lo = true ∧ svLeB lo curr = true := by
  by_cases heq : curr.release = prev.release
  · refine ⟨curr, ?_, h1, svLeB_refl curr⟩
    unfold best_lowerbound
    rw [h1]
    simp only [if_true]
    rw [if_pos heq]
  · have hcl : releaseCmp prev.release curr.release = .lt := by
      unfold svLtB svCmp at h1
      cases hrc : releaseCmp prev.release curr.release with
      | lt => rfl
      | gt => rw [hrc] at h1; cases h1
      | eq =>
        exact absurd ((releaseCmp_eq_iff prev.release curr.release).1 hrc).symm heq
    have hcf : curr.pre = .final := by
      rcases hpre with h | h
      · exact h
      · exact absurd h heq
    cases hf : firstLtIdx prev.release curr.release with
    | some i =>
      obtain ⟨q, x, xs, y, ys, hc1, hc2, hc3, hc4⟩ :=
        firstLtIdx_spec prev.release curr.release i hf hcl
      have hbl : best_lowerbound prev curr = some (up_to curr (i + 1)) := by
        unfold best_lowerbound
        rw [h1]
        simp only [if_true]
        rw [if_neg heq, hf]
      have hup : up_to curr (i + 1) = ⟨q ++ [y], .final⟩ := by
        unfold up_to
        rw [← hc3, hc2, take_len_succ]
      refine ⟨_, hbl, ?_, ?_⟩
      · rw [hup]
        unfold svLtB svCmp
        rw [hc1, releaseCmp_append]
        rw [show releaseCmp (x :: xs) [y] = .lt by
          show (match vcompCmp x y with
            | .eq => releaseCmp xs []
            | o => o) = .lt
          rw [hc4]]
        rfl
      · rw [hup]
        unfold svLeB svCmp
        conv_lhs => rw [hc2]
        rw [releaseCmp_append]
        rw [show releaseCmp [y] (y :: ys) = releaseCmp [] ys by
          show (match vcompCmp y y with
            | .eq => releaseCmp [] ys
            | o => o) = releaseCmp [] ys
          rw [vcompCmp_self]]
        cases ys with
        | nil =>
          rw [show releaseCmp [] ([] : List VComp) = .eq from rfl, hcf, prerelCmp_self]
          rfl
        | cons z zs => rfl
    | none =>
      have hspec := firstLtIdx_none_spec prev.release curr.release hf hcl
      have hlt : prev.release.length < curr.release.length := by
        rcases Nat.lt_or_ge prev.release.length curr.release.length with h | h
        · exact h
        · exfalso
          have hlen : prev.release.length = curr.release.length := by
            have := hspec.1
            omega
          have := hspec.2
          rw [List.take_all_of_le (by omega)] at this
          exact heq this
      have hdec : curr.release = prev.release ++ curr.release.drop prev.release.length := by
        conv_lhs => rw [← List.take_append_drop prev.release.length curr.release]
        rw [hspec.2]
      obtain ⟨rest2, hr1, hr2, hr3⟩ :=
        countLeadingZeros_spec (curr.release.drop prev.release.length)
      rcases hr2 with hnil | ⟨c, cs, hcc, hcnz⟩
      · -- the extension is all zeros: the bound falls back to curr itself
        have hge : prev.release.length +
            countLeadingZeros (curr.release.drop prev.release.length) ≥
            curr.release.length := by
          rw [hnil] at hr3
          simp at hr3
          have hdl : (curr.release.drop prev.release.length).length =
              curr.release.length - prev.release.length := by simp
          omega
        have hbl : best_lowerbound prev curr = some curr := by
          unfold best_lowerbound
          rw [h1]
          simp only [if_true]
          rw [if_neg heq, hf]
          rw [if_pos hlt, if_pos hge]
        exact ⟨curr, hbl, h1, svLeB_refl curr⟩
      · -- the bound is curr truncated just past the first nonzero component
        obtain ⟨z, hz⟩ : ∃ z, countLeadingZeros (curr.release.drop prev.release.length) = z :=
          ⟨_, rfl⟩
        rw [hz] at hr1 hr3
        have hdl : (curr.release.drop prev.release.length).length =
            curr.release.length - prev.release.length := by simp
        have hilt : prev.release.length + z < curr.release.length := by
          rw [hcc] at hr3
          simp at hr3
          omega
        have hbl : best_lowerbound prev curr = some (up_to curr
            (prev.release.length + z + 1)) := by
          unfold best_lowerbound
          rw [h1]
          simp only [if_true]
          rw [if_neg heq, hf]
          rw [if_pos hlt, hz, if_neg (by omega)]
        have hfulldec : curr.release = (prev.release ++
            List.replicate z (VComp.num 0)) ++ c :: cs := by
          rw [hcc] at hr1
          conv_lhs => rw [hdec, hr1]
          simp
        have hup : up_to curr (prev.release.length + z + 1) =
            ⟨(prev.release ++ List.replicate z (VComp.num 0)) ++ [c], .final⟩ := by
          unfold up_to
          conv_lhs => rw [hfulldec]
          rw [show prev.release.length + z =
              (prev.release ++ List.replicate z (VComp.num 0)).length by simp]
          rw [take_len_succ]
        refine ⟨_, hbl, ?_, ?_⟩
        · rw [hup]
          unfold svLtB svCmp
          have hsh : (prev.release ++ List.replicate z (VComp.num 0)) ++ [c] =
              prev.release ++ (List.replicate z (VComp.num 0) ++ [c]) := by
            simp
          rw [hsh]
          obtain ⟨y, ys, hys⟩ := List.exists_cons_of_ne_nil
            (l := List.replicate z (VComp.num 0) ++ [c]) (by simp)
          rw [hys, releaseCmp_extend_lt]
          rfl
        · rw [hup]
          unfold svLeB svCmp
          conv_lhs => rw [hfulldec]
          rw [releaseCmp_append]
          rw [show releaseCmp [c] (c :: cs) = releaseCmp [] cs by
            show (match vcompCmp c c with
              | .eq => releaseCmp [] cs
              | o => o) = releaseCmp [] cs
            rw [vcompCmp_self]]
          cases cs with
          | nil =>
            rw [show releaseCmp [] ([] : List VComp) = .eq from rfl, hcf, prerelCmp_self]
            rfl
          | cons z zs => rfl

theorem marker_groups_aux_map {α β : Type} (f : α → β) :
    ∀ (rest : List (MarkerBinOp × α)) (cur : List α),
    marker_groups_aux (cur.map f) (rest.map (fun p => (p.1, f p.2))) =
      (marker_groups_aux cur rest).map (List.map f)
  | [], cur => by simp [marker_groups_aux]
  | (op, n) :: t, cur => by
    cases op with
    | andOp =>
      show marker_groups_aux (cur.map f ++ [f n]) (t.map (fun p => (p.1, f p.2))) = _
      rw [show cur.map f ++ [f n] = (cur ++ [n]).map f by simp]
      rw [marker_groups_aux_map f t (cur ++ [n])]
      rfl
    | orOp =>
      show cur.map f :: marker_groups_aux [f n] (t.map (fun p => (p.1, f p.2))) = _
      rw [show [f n] = [n].map f by simp]
      rw [marker_groups_aux_map f t [n]]
      rfl

/-- `_do_evaluate_marker` is the or-fold of `_eval_and` over the groups of
the marker's two-level disjunctive form. -/
theorem do_evaluate_marker_groups (provider : PackageProvider) (first : MarkerNode)
    (rest : List (MarkerBinOp × MarkerNode)) :
    do_evaluate_marker provider first rest =
      or_eval ((marker_groups first rest).map (eval_and provider)) := by
  unfold do_evaluate_marker combine_marker marker_groups
  rw [show [eval_node provider first] = [first].map (eval_node provider) by simp]
  rw [show rest.map (fun p => (p.1, eval_node provider p.2)) =
    rest.map (fun p => (p.1, (eval_node provider) p.2)) from rfl]
  rw [marker_groups_aux_map (eval_node provider) rest [first]]
  unfold eval_and
  rw [List.map_map]
  rfl

theorem orLoop_tru : ∀ (rs : List (Option MRes)) (lhs : MRes),
    some MRes.tru ∈ rs → orLoop lhs rs ≠ none → orLoop lhs rs = some .tru
  | [], lhs, hmem, _ => by simp at hmem
  | none :: t, lhs, hmem, hnn => by
    exact absurd rfl hnn
  | some rhs :: t, lhs, hmem, hnn => by
    by_cases hr : rhs = .tru
    · subst hr
      simp [orLoop]
    · have hmem2 : some MRes.tru ∈ t := by
        rcases List.mem_cons.1 hmem with h | h
        · exact absurd (Option.some.inj h.symm) hr
        · exact h
      have hred : orLoop lhs (some rhs :: t) =
          (match orCombine lhs rhs with
           | none => none
           | some lhs2 => orLoop lhs2 t) := by
        show (if (rhs = MRes.tru) then some MRes.tru else _) = _
        rw [if_neg hr]
      rw [hred] at hnn ⊢
      cases hoc : orCombine lhs rhs with
      | none => rw [hoc] at hnn; exact absurd rfl hnn
      | some lhs2 => rw [hoc] at hnn; exact orLoop_tru t lhs2 hmem2 hnn

theorem or_eval_tru (rs : List (Option MRes)) (hmem : some MRes.tru ∈ rs)
    (hnn : or_eval rs ≠ none) : or_eval rs = some .tru := by
  cases rs with
  | nil => simp at hmem
  | cons r t =>
    cases r with
    | none => exact absurd rfl hnn
    | some r0 =>
      by_cases hr : r0 = .tru
      · subst hr
        simp [or_eval]
      · have hmem2 : some MRes.tru ∈ t := by
          rcases List.mem_cons.1 hmem with h | h
          · exact absurd (Option.some.inj h.symm) hr
          · exact h
        have hred : or_eval (some r0 :: t) = orLoop r0 t := by
          show (if (r0 = MRes.tru) then some MRes.tru else orLoop r0 t) = _
          rw [if_neg hr]
        rw [hred] at hnn ⊢
        exact orLoop_tru t r0 hmem2 hnn

theorem andLoop_fls : ∀ (rs : List (Option MRes)) (lhs : MRes),
    some MRes.fls ∈ rs → andLoop lhs rs ≠ none → andLoop lhs rs = some .fls
  | [], lhs, hmem, _ => by simp at hmem
  | none :: t, lhs, hmem, hnn => by exact absurd rfl hnn
  | some rhs :: t, lhs, hmem, hnn => by
    by_cases hr : rhs = .fls
    · subst hr
      simp [andLoop]
    · have hmem2 : some MRes.fls ∈ t := by
        rcases List.mem_cons.1 hmem with h | h
        · exact absurd (Option.some.inj h.symm) hr
        · exact h
      have hred : andLoop lhs (some rhs :: t) =
          (match andCombine lhs rhs with
           | .retFls => some .fls
           | .exc => none
           | .cont lhs2 => andLoop lhs2 t) := by
        show (if (rhs = MRes.fls) then some MRes.fls else _) = _
        rw [if_neg hr]
      rw [hred] at hnn ⊢
      cases hoc : andCombine lhs rhs with
      | retFls => rfl
      | exc => rw [hoc] at hnn; exact absurd rfl hnn
      | cont lhs2 => rw [hoc] at hnn; exact andLoop_fls t lhs2 hmem2 hnn

theorem and_eval_fls (rs : List (Option MRes)) (hmem : some MRes.fls ∈ rs)
    (hnn : and_eval rs ≠ none) : and_eval rs = some .fls := by
  cases rs with
  | nil => simp at hmem
  | cons r t =>
    cases r with
    | none => exact absurd rfl hnn
    | some r0 =>
      by_cases hr : r0 = .fls
      · subst hr
        simp [and_eval]
      · have hmem2 : some MRes.fls ∈ t := by
          rcases List.mem_cons.1 hmem with h | h
          · exact absurd (Option.some.inj h.symm) hr
          · exact h
        have hred : and_eval (some r0 :: t) = andLoop r0 t := by
          show (if (r0 = MRes.fls) then some MRes.fls else andLoop r0 t) = _
          rw [if_neg hr]
        rw [hred] at hnn ⊢
        exact andLoop_fls t r0 hmem2 hnn

theorem andLoop_unev : ∀ (rs : List (Option MRes)) (lhs r : MRes),
    andLoop lhs rs = some r → (some MRes.unevaluable ∈ rs ∨ lhs = .unevaluable) →
    r = .fls ∨ r = .unevaluable
  | [], lhs, r, hres, hsrc => by
    rcases hsrc with hm | hl
    · simp at hm
    · right
      have : lhs = r := Option.some.inj hres
      rw [← this, hl]
  | none :: t, lhs, r, hres, _ => by simp [andLoop] at hres
  | some rhs :: t, lhs, r, hres, hsrc => by
    by_cases hr : rhs = .fls
    · subst hr
      rw [show andLoop lhs (some MRes.fls :: t) = some .fls from by simp [andLoop]] at hres
      exact Or.inl (Option.some.inj hres).symm
    · have hred : andLoop lhs (some rhs :: t) =
          (match andCombine lhs rhs with
           | .retFls => some .fls
           | .exc => none
           | .cont lhs2 => andLoop lhs2 t) := by
        show (if (rhs = MRes.fls) then some MRes.fls else _) = _
        rw [if_neg hr]
      rw [hred] at hres
      cases hoc : andCombine lhs rhs with
      | retFls =>
        rw [hoc] at hres
        exact Or.inl (Option.some.inj hres).symm
      | exc => rw [hoc] at hres; simp at hres
      | cont lhs2 =>
        rw [hoc] at hres
        have hseed : some MRes.unevaluable ∈ t ∨ lhs2 = .unevaluable := by
          rcases hsrc with hm | hl
          · rcases List.mem_cons.1 hm with h | h
            · right
              have hrhs : rhs = .unevaluable := (Option.some.inj h).symm
              have : andCombine lhs rhs = .cont .unevaluable := by
                rw [hrhs]; simp [andCombine]
              rw [hoc] at this
              exact AndStep.cont.inj this
            · exact Or.inl h
          · right
            have : andCombine lhs rhs = .cont .unevaluable := by
              rw [hl]; simp [andCombine]
            rw [hoc] at this
            exact AndStep.cont.inj this
        exact andLoop_unev t lhs2 r hres hseed

theorem and_eval_unev (rs : List (Option MRes)) (r : MRes)
    (hres : and_eval rs = some r) (hmem : some MRes.unevaluable ∈ rs) :
    r = .fls ∨ r = .unevaluable := by
  cases rs with
  | nil => simp at hmem
  | cons r0 t =>
    cases r0 with
    | none => simp [and_eval] at hres
    | some r0 =>
      by_cases hr : r0 = .fls
      · subst hr
        rw [show and_eval (some MRes.fls :: t) = some .fls from by simp [and_eval]] at hres
        exact Or.inl (Option.some.inj hres).symm
      · have hred : and_eval (some r0 :: t) = andLoop r0 t := by
          show (if (r0 = MRes.fls) then some MRes.fls else andLoop r0 t) = _
          rw [if_neg hr]
        rw [hred] at hres
        rcases List.mem_cons.1 hmem with h | h
        · exact andLoop_unev t r0 r hres (Or.inr (Option.some.inj h).symm)
        · exact andLoop_unev t r0 r hres (Or.inl h)

theorem orLoop_unev : ∀ (rs : List (Option MRes)) (lhs r : MRes),
    orLoop lhs rs = some r → (some MRes.unevaluable ∈ rs ∨ lhs = .unevaluable) →
    r = .tru ∨ r = .unevaluable
  | [], lhs, r, hres, hsrc => by
    rcases hsrc with hm | hl
    · simp at hm
    · right
      have : lhs = r := Option.some.inj hres
      rw [← this, hl]
  | none :: t, lhs, r, hres, _ => by simp [orLoop] at hres
  | some rhs :: t, lhs, r, hres, hsrc => by
    by_cases hr : rhs = .tru
    · subst hr
      rw [show orLoop lhs (some MRes.tru :: t) = some .tru from by simp [orLoop]] at hres
      exact Or.inl (Option.some.inj hres).symm
    · have hred : orLoop lhs (some rhs :: t) =
          (match orCombine lhs rhs with
           | none => none
           | some lhs2 => orLoop lhs2 t) := by
        show (if (rhs = MRes.tru) then some MRes.tru else _) = _
        rw [if_neg hr]
      rw [hred] at hres
      cases hoc : orCombine lhs rhs with
      | none => rw [hoc] at hres; simp at hres
      | some lhs2 =>
        rw [hoc] at hres
        have hseed : some MRes.unevaluable ∈ t ∨ lhs2 = .unevaluable := by
          rcases hsrc with hm | hl
          · rcases List.mem_cons.1 hm with h | h
            · right
              have hrhs : rhs = .unevaluable := (Option.some.inj h).symm
              have : orCombine lhs rhs = some .unevaluable := by
                rw [hrhs]; simp [orCombine]
              rw [hoc] at this
              exact Option.some.inj this
            · exact Or.inl h
          · right
            have : orCombine lhs rhs = some .unevaluable := by
              rw [hl]; simp [orCombine]
            rw [hoc] at this
            exact Option.some.inj this
        exact orLoop_unev t lhs2 r hres hseed

theorem or_eval_unev (rs : List (Option MRes)) (r : MRes)
    (hres : or_eval rs = some r) (hmem : some MRes.unevaluable ∈ rs) :
    r = .tru ∨ r = .unevaluable := by
  cases rs with
  | nil => simp at hmem
  | cons r0 t =>
    cases r0 with
    | none => simp [or_eval] at hres
    | some r0 =>
      by_cases hr : r0 = .tru
      · subst hr
        rw [show or_eval (some MRes.tru :: t) = some .tru from by simp [or_eval]] at hres
        exact Or.inl (Option.some.inj hres).symm
      · have hred : or_eval (some r0 :: t) = orLoop r0 t := by
          show (if (r0 = MRes.tru) then some MRes.tru else orLoop r0 t) = _
          rw [if_neg hr]
        rw [hred] at hres
        rcases List.mem_cons.1 hmem with h | h
        · exact orLoop_unev t r0 r hres (Or.inr (Option.some.inj h).symm)
        · exact orLoop_unev t r0 r hres (Or.inl h)

theorem pairsOf_mem_iff {α : Type} (a b : α) : ∀ l : List α,
    (a, b) ∈ pairsOf l ↔ [a, b].Sublist l
  | [] => by simp [pairsOf]
  | x :: xs => by
    simp only [pairsOf, List.mem_append, List.mem_map]
    constructor
    · rintro (⟨y, hy, heq⟩ | h)
      · obtain ⟨rfl, rfl⟩ := Prod.mk.injEq x y a b ▸
          And.intro (congrArg Prod.fst heq) (congrArg Prod.snd heq)
        exact List.Sublist.cons₂ a (List.singleton_sublist.2 hy)
      · exact ((pairsOf_mem_iff a b xs).1 h).cons x
    · intro h
      cases h with
      | cons _ h2 => exact Or.inr ((pairsOf_mem_iff a b xs).2 h2)
      | cons₂ _ h2 => exact Or.inl ⟨b, List.singleton_sublist.1 h2, rfl⟩

theorem dedupAux_mem {α : Type} [DecidableEq α] (x : α) : ∀ (seen l : List α),
    x ∈ dedupAux seen l ↔ x ∈ l ∧ x ∉ seen
  | seen, [] => by simp [dedupAux]
  | seen, y :: ys => by
    by_cases hy : y ∈ seen
    · rw [show dedupAux seen (y :: ys) = dedupAux seen ys from by simp [dedupAux, hy]]
      rw [dedupAux_mem x seen ys]
      constructor
      · rintro ⟨h1, h2⟩
        exact ⟨List.mem_cons_of_mem _ h1, h2⟩
      · rintro ⟨h1, h2⟩
        rcases List.mem_cons.1 h1 with h | h
        · exact absurd (h ▸ hy) h2
        · exact ⟨h, h2⟩
    · rw [show dedupAux seen (y :: ys) = y :: dedupAux (seen ++ [y]) ys from by
        simp [dedupAux, hy]]
      rw [List.mem_cons, dedupAux_mem x (seen ++ [y]) ys, List.mem_cons]
      constructor
      · rintro (rfl | ⟨h1, h2⟩)
        · exact ⟨Or.inl rfl, hy⟩
        · exact ⟨Or.inr h1, fun hc => h2 (List.mem_append_left _ hc)⟩
      · rintro ⟨rfl | h1, h2⟩
        · exact Or.inl rfl
        · by_cases hxy : x = y
          · exact Or.inl hxy
          · refine Or.inr ⟨h1, fun hc => ?_⟩
            rcases List.mem_append.1 hc with hm | hm
            · exact h2 hm
            · exact hxy (List.mem_singleton.1 hm)

theorem dedupKeepFirst_mem {α : Type} [DecidableEq α] (x : α) (l : List α) :
    x ∈ dedupKeepFirst l ↔ x ∈ l := by
  rw [dedupKeepFirst, dedupAux_mem x [] l]
  simp

/-- Claim C1: condensation soundness fails — the claimed invariant that
`condensed_version_list(subset, universe)` contains a universe version iff it
is in the subset is refuted by `subset = {1.0}`, `universe = {1.0, 1.1a1}`:
the returned version list contains the excluded universe version `1.1a1`. -/
theorem c1_condensation_includes_excluded_prerelease :
    (match condensed_version_list [pvRel [1,0]] [pvRel [1,0], pvAlpha [1,1] 1] with
     | some L => vlContains L (packaging_to_spack_version (pvAlpha [1,1] 1))
     | none => false) = true ∧
    pvAlpha [1,1] 1 ∈ [pvRel [1,0], pvAlpha [1,1] 1] ∧
    pvAlpha [1,1] 1 ∉ [pvRel [1,0]] := by decide

/-- Claim C2 (counterexample): boundaries emitted by `_best_upperbound` and
`_best_lowerbound` are not always separating or minimal — the upper bound
fails to exclude the adjacent universe version when it is a prerelease
(`1.4` / `1.4.1rc1`), a pure zero-extension (`3.0` / `3.0.0`) or a
post-release (`2.0` / `2.0.post1`); the lower bound for `1.2` / `1.2.0.5` is
the full version although the shorter prefix `1.2.0` already separates, and
the lower bound for `2.1` / `2.2b3` is `2.2`, which excludes the included
`2.2b3`. -/
theorem c2_boundary_counterexamples :
    (best_upperbound (svRel [1,4]) ⟨[.num 1, .num 4, .num 1], .rc 1⟩ =
        some (svRel [1,4,0]) ∧
      svLtB ⟨[.num 1, .num 4, .num 1], .rc 1⟩ (nextVersion (svRel [1,4,0])) = true) ∧
    (best_upperbound (svRel [3,0]) (svRel [3,0,0]) = some (svRel [3,0,0]) ∧
      svLtB (svRel [3,0,0]) (nextVersion (svRel [3,0,0])) = true) ∧
    (best_upperbound (svRel [2,0]) ⟨[.num 2, .num 0, .str "post", .num 1], .final⟩ =
        some (svRel [2,0,0,0]) ∧
      svLtB ⟨[.num 2, .num 0, .str "post", .num 1], .final⟩
        (nextVersion (svRel [2,0,0,0])) = true) ∧
    (best_lowerbound (svRel [1,2]) (svRel [1,2,0,5]) = some (svRel [1,2,0,5]) ∧
      svLtB (svRel [1,2]) (svRel [1,2,0]) = true ∧
      svLeB (svRel [1,2,0]) (svRel [1,2,0,5]) = true) ∧
    (best_lowerbound (svRel [2,1]) ⟨[.num 2, .num 2], .beta 3⟩ = some (svRel [2,2]) ∧
      svLtB ⟨[.num 2, .num 2], .beta 3⟩ (svRel [2,2]) = true) := by decide

/-- Claim C2 (amended): for a final, all-numeric next version that is not a
strict zero-extension of the current one, `_best_upperbound` emits a bound
whose range includes `curr`, excludes `nxt`, is the shortest such prefix of
`curr`, and is zero-padded in the strict-prefix case; for a final included
version (or an excluded prerelease of it), `_best_lowerbound` emits a bound
excluding `prev` and not exceeding `curr`; and the condensation of
`{2.0, 2.1}` inside `{2.0, 2.0.0.1, 2.1}` contains `2.0` and `2.1` but not
`2.0.0.1`. -/
theorem c2_boundary_bounds_amended (curr nxt prev curr2 : StandardVersion)
    (h1 : svLtB curr nxt = true) (h2 : nxt.pre = .final)
    (h3 : allNumeric nxt.release = true)
    (h4 : isStrictZeroExtension curr.release nxt.release = false)
    (h5 : curr.release ≠ [])
    (h6 : svLtB prev curr2 = true)
    (h7 : curr2.pre = .final ∨ curr2.release = prev.release) :
    (∃ b, best_upperbound curr nxt = some b ∧
      svLtB curr (nextVersion b) = true ∧
      svLtB nxt (nextVersion b) = false ∧
      (∀ k, 1 ≤ k → k < b.release.length →
        svLtB nxt (nextVersion (up_to curr k)) = true) ∧
      (commonPrefixLen curr.release nxt.release = curr.release.length →
        curr.release.length < nxt.release.length →
        b.release = curr.release ++
          List.replicate (nxt.release.length - curr.release.length) (VComp.num 0))) ∧
    (∃ lo, best_lowerbound prev curr2 = some lo ∧
      svLtB prev lo = true ∧ svLeB lo curr2 = true) ∧
    (match condensed_version_list [pvRel [2,0], pvRel [2,1]]
        [pvRel [2,0], pvRel [2,0,0,1], pvRel [2,1]] with
     | some L => vlContains L (svRel [2,0]) && vlContains L (svRel [2,1]) &&
         !(vlContains L (svRel [2,0,0,1]))
     | none => false) = true :=
  ⟨best_upperbound_spec curr nxt h1 h2 h3 h4 h5,
   best_lowerbound_spec prev curr2 h6 h7, by decide⟩

/-- Claim C2 (witness): the amended boundary property at `2.0` / `2.0.5`
and `1.2` / `1.3`. -/
theorem c2_boundary_bounds_witness :
    (∃ b, best_upperbound (svRel [2,0]) (svRel [2,0,5]) = some b ∧
      svLtB (svRel [2,0]) (nextVersion b) = true ∧
      svLtB (svRel [2,0,5]) (nextVersion b) = false) ∧
    (∃ lo, best_lowerbound (svRel [1,2]) (svRel [1,3]) = some lo ∧
      svLtB (svRel [1,2]) lo = true ∧ svLeB lo (svRel [1,3]) = true) := by
  obtain ⟨⟨b, hb, hb1, hb2, _, _⟩, ⟨lo, hlo, hlo1, hlo2⟩, _⟩ :=
    c2_boundary_bounds_amended (svRel [2,0]) (svRel [2,0,5]) (svRel [1,2]) (svRel [1,3])
      (by decide) (by decide) (by decide) (by decide) (by decide) (by decide)
      (Or.inl (by decide))
  exact ⟨⟨b, hb, hb1, hb2⟩, ⟨lo, hlo, hlo1, hlo2⟩⟩

/-- Claim C3: a requirement whose specifier matches none of the dependency's
known versions converts to a `ConversionError` (given that the marker block
and extras constraining succeed), and a requirement whose marker evaluates
statically to `False` converts to the empty list with no error. -/
theorem c3_unsat_specifier_error_false_marker_empty :
    (∀ (provider : PackageProvider) (r : Requirement) (fe : Option String)
      (ss : SpecifierSet) (vs : List PVersion) (whens : List SSpec) (s : SSpec),
      r.specifier = some ss → r.name ≠ "python" → provider r.name = .ok vs →
      (∀ v ∈ vs, specifier_set_contains ss v = false) →
      markerStep provider r.marker = .keep whens →
      constrainExtras { name := some (pkg_to_spack_name r.name) } r.extras = some s →
      convert_requirement provider r fe = .err ⟨.noMatchingVersions⟩) ∧
    (∀ (provider : PackageProvider) (r : Requirement) (fe : Option String) (m : Marker),
      r.marker = some m → evaluate_marker provider m = some .fls →
      convert_requirement provider r fe = .ok []) := by
  constructor
  · intro provider r fe ss vs whens s hspec hname hprov hnomatch hmk hex
    have hfil : vs.filter (fun v => specifier_set_contains ss v) = [] :=
      List.filter_eq_nil.mpr (fun a ha => by simp [hnomatch a ha])
    have hall : all_versions_for provider r.name = .ok vs := by
      unfold all_versions_for
      rw [if_neg hname, hprov]
    have hv : pkg_specifier_set_to_version_list provider r.name ss = some [] := by
      unfold pkg_specifier_set_to_version_list
      rw [hall]
      simp [hfil]
    unfold convert_requirement
    rw [hmk]
    simp [hex, hspec, hv]
  · intro provider r fe m hm hfls
    have hstep : markerStep provider r.marker = .skip := by
      rw [hm]
      simp only [markerStep]
      rw [hfls]
    unfold convert_requirement
    rw [hstep]

/-- Claim C3 (witness): a `>=99` specifier on `black` yields the
no-matching-versions error while a statically false `solaris` marker drops
the requirement without error. -/
theorem c3_unsat_specifier_witness :
    convert_requirement provBlack
      { name := "black", specifier := some [⟨.ge, pvRel [99]⟩] } none =
      .err ⟨.noMatchingVersions⟩ ∧
    convert_requirement provBlack { name := "black", marker := some ⟨flsNode, []⟩ } none =
      .ok [] := by
  constructor
  · exact (c3_unsat_specifier_error_false_marker_empty).1 provBlack
      { name := "black", specifier := some [⟨.ge, pvRel [99]⟩] } none
      [⟨.ge, pvRel [99]⟩] [pvRel [22,1,0], pvRel [23,1,0]] [{}]
      { name := some (pkg_to_spack_name "black") }
      rfl (by decide) rfl (by decide) rfl rfl
  · exact (c3_unsat_specifier_error_false_marker_empty).2 provBlack
      { name := "black", marker := some ⟨flsNode, []⟩ } none ⟨flsNode, []⟩ rfl (by decide)

/-- Claim C4 (counterexample): a requirement whose marker evaluates to
unevaluable (`os_name == "posix"`) does not yield a `ConversionError`; it
converts successfully with the marker silently discarded. -/
theorem c4_unevaluable_marker_counterexample :
    evaluate_marker provBlack ⟨unevNode, []⟩ = some .unevaluable ∧
    convert_requirement provBlack { name := "black", marker := some ⟨unevNode, []⟩ } none =
      .ok [({ name := some "py-black" }, {})] := by decide

/-- Claim C4 (amended): a marker evaluating to unevaluable is silently
dropped — `convert_requirement` behaves exactly as if the requirement had no
marker at all. -/
theorem c4_unevaluable_marker_dropped (provider : PackageProvider) (r : Requirement)
    (fe : Option String) (m : Marker) (hm : r.marker = some m)
    (hu : evaluate_marker provider m = some .unevaluable) :
    convert_requirement provider r fe =
      convert_requirement provider { r with marker := none } fe := by
  have h1 : markerStep provider r.marker = .keep [{}] := by
    rw [hm]
    simp only [markerStep]
    rw [hu]
  unfold convert_requirement
  rw [h1]
  rfl

/-- Claim C4 (witness): the amended property at the unevaluable
`os_name == "posix"` marker. -/
theorem c4_unevaluable_marker_witness :
    convert_requirement provBlack { name := "black", marker := some ⟨unevNode, []⟩ } none =
      convert_requirement provBlack { name := "black", marker := none } none :=
  c4_unevaluable_marker_dropped provBlack
    { name := "black", marker := some ⟨unevNode, []⟩ } none ⟨unevNode, []⟩ rfl (by decide)

/-- Claim C5: the marker combination absorption laws — a statically true
"or" group forces the whole evaluation true; a statically false leaf forces
its "and" group false; an unevaluable leaf otherwise dominates its group
(the group result can only be false or unevaluable); and an unevaluable
group otherwise dominates the whole evaluation (the result can only be true
or unevaluable). -/
theorem c5_marker_absorption (provider : PackageProvider) (m : Marker) :
    ((∃ g ∈ marker_groups m.first m.rest, eval_and provider g = some .tru) →
      evaluate_marker provider m ≠ none → evaluate_marker provider m = some .tru) ∧
    (∀ g ∈ marker_groups m.first m.rest,
      (∃ n ∈ g, eval_node provider n = some .fls) → eval_and provider g ≠ none →
      eval_and provider g = some .fls) ∧
    (∀ g ∈ marker_groups m.first m.rest, ∀ r,
      (∃ n ∈ g, eval_node provider n = some .unevaluable) →
      eval_and provider g = some r → r = .fls ∨ r = .unevaluable) ∧
    (∀ r, (∃ g ∈ marker_groups m.first m.rest, eval_and provider g = some .unevaluable) →
      evaluate_marker provider m = some r → r = .tru ∨ r = .unevaluable) := by
  have he : evaluate_marker provider m =
      or_eval ((marker_groups m.first m.rest).map (eval_and provider)) :=
    do_evaluate_marker_groups provider m.first m.rest
  refine ⟨?_, ?_, ?_, ?_⟩
  · rintro ⟨g, hg, hgt⟩ hnn
    rw [he] at hnn ⊢
    refine or_eval_tru _ ?_ hnn
    rw [← hgt]
    exact List.mem_map_of_mem (eval_and provider) hg
  · rintro g hg ⟨n, hn, hnf⟩ hnn
    unfold eval_and at hnn ⊢
    refine and_eval_fls _ ?_ hnn
    rw [← hnf]
    exact List.mem_map_of_mem (eval_node provider) hn
  · rintro g hg r ⟨n, hn, hnu⟩ hres
    unfold eval_and at hres
    refine and_eval_unev _ r hres ?_
    rw [← hnu]
    exact List.mem_map_of_mem (eval_node provider) hn
  · rintro r ⟨g, hg, hgu⟩ hres
    rw [he] at hres
    refine or_eval_unev _ r hres ?_
    rw [← hgu]
    exact List.mem_map_of_mem (eval_and provider) hg

/-- Claim C5 (witness): the four absorption laws at concrete markers — a true
group beside an unevaluable one, a false leaf after an unevaluable one, an
unevaluable leaf beside a true one, and an unevaluable group beside a
spec-list group. -/
theorem c5_marker_absorption_witness :
    evaluate_marker noProv { first := unevNode, rest := [(.orOp, truNode)] } = some .tru ∧
    eval_and noProv [unevNode, flsNode] = some .fls ∧
    (MRes.unevaluable = .fls ∨ MRes.unevaluable = .unevaluable) ∧
    (MRes.unevaluable = .tru ∨ MRes.unevaluable = .unevaluable) := by
  refine ⟨?_, ?_, ?_, ?_⟩
  · exact (c5_marker_absorption noProv ⟨unevNode, [(.orOp, truNode)]⟩).1
      ⟨[truNode], by decide, by decide⟩ (by decide)
  · exact (c5_marker_absorption noProv ⟨unevNode, [(.andOp, flsNode)]⟩).2.1
      [unevNode, flsNode] (by decide) ⟨flsNode, by decide, by decide⟩ (by decide)
  · exact (c5_marker_absorption noProv ⟨truNode, [(.andOp, unevNode)]⟩).2.2.1
      [truNode, unevNode] (by decide) .unevaluable ⟨unevNode, by decide, by decide⟩
      (by decide)
  · exact (c5_marker_absorption noProv ⟨unevNode, [(.orOp, specNode)]⟩).2.2.2
      .unevaluable ⟨[unevNode], by decide, by decide⟩ (by decide)

/-- Claim C6: a platform leaf whose normalized literal is one of the five
enumerated platforms yields the singleton condition under `==` and one
condition per other member under `!=`; a literal outside the set is
statically true under `!=` and statically false under `==`. -/
theorem c6_platform_leaf (op value : String) (hop : op = "==" ∨ op = "!=") :
    (normalizePlatform value ∈ platformsList →
      (op = "==" → eval_platform_constraint op value =
        .specs [platformSpec (normalizePlatform value)]) ∧
      (op = "!=" → eval_platform_constraint op value =
        .specs ((platformsList.filter
          (fun q => q ≠ normalizePlatform value)).map platformSpec))) ∧
    (normalizePlatform value ∉ platformsList →
      (op = "!=" → eval_platform_constraint op value = .tru) ∧
      (op = "==" → eval_platform_constraint op value = .fls)) := by
  obtain ⟨p, hp⟩ : ∃ p, normalizePlatform value = p := ⟨_, rfl⟩
  unfold eval_platform_constraint
  rw [hp]
  constructor
  · intro hmem
    constructor
    · rintro rfl
      rw [if_pos (Or.inl rfl)]
      simp only []
      rw [if_pos hmem]
      fin_cases hmem <;> decide
    · rintro rfl
      rw [if_pos (Or.inr rfl)]
      simp only []
      rw [if_pos hmem]
      fin_cases hmem <;> decide
  · intro hmem
    rw [if_pos hop]
    simp only []
    rw [if_neg hmem]
    constructor
    · rintro rfl
      decide
    · rintro rfl
      decide

/-- Claim C6 (witness): `sys_platform != "Windows"` (normalized to
`windows`) yields the four other platforms, `platform_system == "solaris"`
is statically false. -/
theorem c6_platform_leaf_witness :
    eval_platform_constraint "!=" "Windows" =
      .specs ((platformsList.filter (fun q => q ≠ "windows")).map platformSpec) ∧
    eval_platform_constraint "==" "solaris" = .fls := by
  constructor
  · have h := ((c6_platform_leaf "!=" "Windows" (Or.inr rfl)).1 (by decide)).2 rfl
    rw [h]
    decide
  · exact ((c6_platform_leaf "==" "solaris" (Or.inl rfl)).2 (by decide)).2 rfl

/-- Claim C7: the conflict detector flags exactly the ordered pairs of
dependency triples that occur in order in the list, share a dependency name,
have intersecting when-conditions and non-intersecting dependency
constraints; in particular `(py-pkg@:4.2 when windows, py-pkg@4.3: when
windows)` is flagged while `(py-pkg@:4.2 when windows, py-pkg@4.3: when
linux)` is not. -/
theorem c7_conflict_criterion (deps : List DepTriple) (d1 d2 : DepTriple) :
    ((d1, d2) ∈ find_dependency_satisfiability_conflicts deps ↔
      [d1, d2].Sublist deps ∧ (∃ n, d1.1.name = some n ∧ d2.1.name = some n) ∧
      sintersects d1.2.1 d2.2.1 = true ∧ sintersects d1.1 d2.1 = false) ∧
    (dWin1, dWin2) ∈ find_dependency_satisfiability_conflicts [dWin1, dWin2] ∧
    (dWin1, dLin2) ∉ find_dependency_satisfiability_conflicts [dWin1, dLin2] := by
  refine ⟨?_, by decide, by decide⟩
  have hdef : find_dependency_satisfiability_conflicts deps =
      ((dedupKeepFirst (deps.filterMap (fun d => d.1.name))).map (fun name =>
        (pairsOf (deps.filter (fun d => d.1.name = some name))).filter (fun p =>
          sintersects p.1.2.1 p.2.2.1 && !(sintersects p.1.1 p.2.1)))).flatten := rfl
  rw [hdef, List.mem_flatten]
  constructor
  · rintro ⟨ll, hll, hmem⟩
    rw [List.mem_map] at hll
    obtain ⟨name, hname, rfl⟩ := hll
    rw [List.mem_filter] at hmem
    obtain ⟨hpair, hcond⟩ := hmem
    have hsub2 := (pairsOf_mem_iff d1 d2 _).1 hpair
    have hd1 : d1 ∈ deps.filter (fun d => d.1.name = some name) := hsub2.subset (by simp)
    have hd2 : d2 ∈ deps.filter (fun d => d.1.name = some name) := hsub2.subset (by simp)
    rw [List.mem_filter] at hd1 hd2
    have hn1 : d1.1.name = some name := by simpa using hd1.2
    have hn2 : d2.1.name = some name := by simpa using hd2.2
    simp only [Bool.and_eq_true, Bool.not_eq_true'] at hcond
    exact ⟨hsub2.trans (List.filter_sublist deps), ⟨name, hn1, hn2⟩, hcond.1, hcond.2⟩
  · rintro ⟨hsub, ⟨n, hn1, hn2⟩, hw, hd⟩
    have hd1mem : d1 ∈ deps := hsub.subset (by simp)
    refine ⟨_, List.mem_map.2 ⟨n, ?_, rfl⟩, ?_⟩
    · rw [dedupKeepFirst_mem]
      exact List.mem_filterMap.2 ⟨d1, hd1mem, hn1⟩
    · rw [List.mem_filter]
      refine ⟨(pairsOf_mem_iff d1 d2 _).2 ?_, ?_⟩
      · have hfil : [d1, d2].filter (fun d => decide (d.1.name = some n)) = [d1, d2] := by
          simp [hn1, hn2]
        exact hfil ▸ hsub.filter _
      · show (sintersects d1.2.1 d2.2.1 && !(sintersects d1.1 d2.1)) = true
        rw [hw, hd]
        rfl

/-- Claim C8: the lower-bound prerelease fallback fails — for the adjacent
pair `prev = 4.2` (excluded), `curr = 4.3a1` (included), `_best_lowerbound`
emits the truncated prefix `4.3` rather than the full version `4.3a1`; since
`4.3a1 < 4.3`, the emitted range excludes the included version, and the
condensation of `{4.3a1}` inside `{4.2, 4.3a1}` loses `4.3a1`. -/
theorem c8_lowerbound_prerelease_lost :
    best_lowerbound (svRel [4,2]) ⟨[.num 4, .num 3], .alpha 1⟩ = some (svRel [4,3]) ∧
    svLtB ⟨[.num 4, .num 3], .alpha 1⟩ (svRel [4,3]) = true ∧
    (match condensed_version_list [pvAlpha [4,3] 1] [pvRel [4,2], pvAlpha [4,3] 1] with
     | some L => vlContains L (packaging_to_spack_version (pvAlpha [4,3] 1))
     | none => true) = false := by decide

/-- Claim C9: every name produced by `pkg_to_spack_name` is either exactly
`python` or starts with `py-`; a simplified name already starting with `py-`
is kept unchanged unless it is one of the three whitelisted names, which get
a second `py-` prefix. -/
theorem c9_spack_name_invariant (name : String) :
    (pkg_to_spack_name name = "python" ∨
      startswith (pkg_to_spack_name name) "py-" = true) ∧
    (startswith (simplify_name name) "py-" = true →
      simplify_name name ∉ doublePyNames →
      pkg_to_spack_name name = simplify_name name) ∧
    (simplify_name name ∈ doublePyNames →
      pkg_to_spack_name name = "py-" ++ simplify_name name) := by
  obtain ⟨s, hs⟩ : ∃ s, simplify_name name = s := ⟨_, rfl⟩
  unfold pkg_to_spack_name
  rw [hs]
  by_cases hc : s ≠ "python" ∧ (¬ startswith s "py-" = true ∨ s ∈ doublePyNames)
  · rw [if_pos hc]
    refine ⟨Or.inr ?_, ?_, fun _ => rfl⟩
    · show List.isPrefixOf "py-".data ("py-".data ++ s.data) = true
      exact List.isPrefixOf_iff_prefix.2 ⟨s.data, rfl⟩
    · intro h1 h2
      exfalso
      rcases hc.2 with h | h
      · exact h h1
      · exact h2 h
  · rw [if_neg hc]
    push_neg at hc
    refine ⟨?_, fun _ _ => rfl, ?_⟩
    · by_cases hpy : s = "python"
      · exact Or.inl hpy
      · exact Or.inr (hc hpy).1
    · intro hmem
      exfalso
      by_cases hpy : s = "python"
      · rw [hpy] at hmem
        simp [doublePyNames] at hmem
      · exact (hc hpy).2 hmem

/-- Claim C9 (witness): the invariant at `black`, `py-pkg` and `py-cpuinfo`. -/
theorem c9_spack_name_witness :
    (pkg_to_spack_name "black" = "python" ∨
      startswith (pkg_to_spack_name "black") "py-" = true) ∧
    pkg_to_spack_name "py-pkg" = "py-pkg" ∧
    pkg_to_spack_name "py-cpuinfo" = "py-py-cpuinfo" := by
  refine ⟨(c9_spack_name_invariant "black").1, ?_, ?_⟩
  · exact ((c9_spack_name_invariant "py-pkg").2.1 (by decide) (by decide)).trans (by decide)
  · exact ((c9_spack_name_invariant "py-cpuinfo").2.2 (by decide)).trans (by decide)

/-- Claim C10: a provider query error makes
`_pkg_specifier_set_to_version_list` return the empty version list rather
than an error, so `convert_requirement` reports any requirement on that
dependency carrying a specifier as the same no-matching-versions
`ConversionError` produced by a genuinely unsatisfiable specifier. -/
theorem c10_provider_error_conflation (provider : PackageProvider) (r : Requirement)
    (fe : Option String) (ss : SpecifierSet) (whens : List SSpec) (s : SSpec)
    (hname : r.name ≠ "python")
    (hprov : provider r.name = .queryError)
    (hspec : r.specifier = some ss)
    (hmk : markerStep provider r.marker = .keep whens)
    (hex : constrainExtras { name := some (pkg_to_spack_name r.name) } r.extras = some s) :
    pkg_specifier_set_to_version_list provider r.name ss = some [] ∧
    convert_requirement provider r fe = .err ⟨.noMatchingVersions⟩ := by
  have hall : all_versions_for provider r.name = .queryError := by
    unfold all_versions_for
    rw [if_neg hname, hprov]
  have hv : pkg_specifier_set_to_version_list provider r.name ss = some [] := by
    unfold pkg_specifier_set_to_version_list
    rw [hall]
  refine ⟨hv, ?_⟩
  unfold convert_requirement
  rw [hmk]
  simp [hex, hspec, hv]

/-- Claim C10 (witness): the conflation at a failing provider and the
requirement `black>=24.2`. -/
theorem c10_provider_error_witness :
    pkg_specifier_set_to_version_list noProv "black" [⟨.ge, pvRel [24,2]⟩] = some [] ∧
    convert_requirement noProv
      { name := "black", specifier := some [⟨.ge, pvRel [24,2]⟩] } none =
      .err ⟨.noMatchingVersions⟩ :=
  c10_provider_error_conflation noProv
    { name := "black", specifier := some [⟨.ge, pvRel [24,2]⟩] } none
    [⟨.ge, pvRel [24,2]⟩] [{}] { name := some (pkg_to_spack_name "black") }
    (by decide) rfl rfl rfl rfl

/-- Claim C7 (witness): the criterion read back at the flagged windows pair. -/
theorem c7_conflict_criterion_witness :
    [dWin1, dWin2].Sublist [dWin1, dWin2] ∧
    sintersects dWin1.2.1 dWin2.2.1 = true ∧ sintersects dWin1.1 dWin2.1 = false := by
  obtain ⟨hsub, _, hw, hd⟩ :=
    (c7_conflict_criterion [dWin1, dWin2] dWin1 dWin2).1.mp (by decide)
  exact ⟨hsub, hw, hd⟩
